import Mathlib

/-
  Verification development for the enoki-jit runtime core.

  Shallow embedding of:
   - the parallel primitives of src/util.cpp (reduction, prefix sum, stream
     compaction, bucketed permutation entry checks, boolean all/any),
   - the CUDA thread-state methods of src/cuda_internal.cpp (memset_async,
     reduce, all/any),
   - the schedule builder and assembler driver of src/eval.cpp
     (sorting, grouping, register assignment, module-load retry),
   - the recorded-loop state machine of the test-suite Loop class.

  Machine integers are modelled as Nat, with uint32 arithmetic embedded as
  ZMod (2 ^ 32) where wrap-around matters (prefix sums).  Counters that the
  source keeps in uint32 but that provably cannot wrap under the stated
  hypotheses (stream-compaction counts, which are bounded by the uint32
  element count) are modelled as Nat.

  Recursive algorithms whose C++ termination rests on the runtime constant
  jitc_llvm_block_size being larger than one are given a structural fuel
  argument initialized with the element count, which strictly dominates the
  recursion depth; the fuel-exhaustion branch coincides with the direct
  single-block path and is unreachable for block sizes above one.
-/

-- ====================================================================
-- Definitions
-- ====================================================================

/-- Backend tag (JitBackend in the source). -/
inductive JitBackend
  | CUDA
  | LLVM
deriving DecidableEq, Repr

/-- Scalar type tag (VarType in the source). -/
inductive VarType
  | Void
  | Bool
  | Int8
  | UInt8
  | Int16
  | UInt16
  | Int32
  | UInt32
  | Int64
  | UInt64
  | Float16
  | Float32
  | Float64
  | Pointer
deriving DecidableEq, Repr

/-- Reduction operation tag (ReduceOp in the source; first value is the
"none" placeholder of the reduction_name table). -/
inductive ReduceOp
  | None
  | Add
  | Mul
  | Min
  | Max
  | And
  | Or
deriving DecidableEq, Repr

/-- A raised fault: jitc_raise produces a recoverable exception, jitc_fail a
fatal one.  Both abort the call that triggered them. -/
inductive JitFault
  | raised (msg : String)
  | fatal (msg : String)
deriving DecidableEq, Repr

/-- The list of consecutive blocks of length `bs` (the last one possibly
shorter) that the CPU paths of util.cpp distribute over the thread pool:
work unit `index` covers `[index * bs, min((index+1) * bs, size))`. -/
def chunks {α : Type} (bs : Nat) (l : List α) : List (List α) :=
  match l with
  | [] => []
  | x :: xs =>
    if bs = 0 then [x :: xs]
    else (x :: xs).take bs :: chunks bs ((x :: xs).drop bs)
termination_by l.length
decreasing_by
  have h2 : 0 < bs := by omega
  simp only [List.length_drop, List.length_cons]
  omega

/-- Phase-1 helper sum_reduce_1<T> of util.cpp: the sum of one block,
accumulated left to right starting from T(0).  The template parameter T is
modelled as an additive monoid; the integer instantiations use
ZMod (2 ^ 32) / ZMod (2 ^ 64), the carriers of uint32/uint64 wrap-around
arithmetic. -/
def sum_reduce_1 {R : Type} [AddMonoid R] (blk : List R) : R :=
  blk.foldl (· + ·) 0

/-- Phase-2 helper sum_reduce_2<T> of util.cpp, exclusive flavour: each
element is replaced by the running total carried in from the left
(`out[i] = accum; accum += value`). -/
def sum_reduce_2_exc {R : Type} [Add R] (accum : R) : List R → List R
  | [] => []
  | value :: rest => accum :: sum_reduce_2_exc (accum + value) rest

/-- Phase-2 helper sum_reduce_2<T> of util.cpp, inclusive flavour
(`accum += value; out[i] = accum`). -/
def sum_reduce_2_inc {R : Type} [Add R] (accum : R) : List R → List R
  | [] => []
  | value :: rest => (accum + value) :: sum_reduce_2_inc (accum + value) rest

/-- sum_reduce_2<T> of util.cpp with its `exclusive` flag. -/
def sum_reduce_2 {R : Type} [Add R] (accum : R) (l : List R) (exclusive : Bool) : List R :=
  if exclusive then sum_reduce_2_exc accum l else sum_reduce_2_inc accum l

/-- The CPU ("LLVM backend") branch of jitc_prefix_sum in util.cpp: when the
input spans more than one block, phase 1 stores each block's sum into a
scratch buffer, the scratch buffer is exclusive-scanned by a recursive call,
and phase 2 rescans each block starting from its scratch entry; with a single
block, phase 2 runs directly with a zero carry (`scratch == nullptr`).
The structural `fuel` argument dominates the recursion depth (see header). -/
def prefix_sum_cpu_go {R : Type} [AddMonoid R] :
    Nat → Nat → List R → Bool → List R
  | 0, _, a, exclusive => sum_reduce_2 0 a exclusive
  | fuel + 1, block_size, a, exclusive =>
    if 1 < (chunks block_size a).length ∧ 1 < block_size then
      (((chunks block_size a).zip
          (prefix_sum_cpu_go fuel block_size
            ((chunks block_size a).map sum_reduce_1) true)).map
        (fun p => sum_reduce_2 p.2 p.1 exclusive)).flatten
    else sum_reduce_2 0 a exclusive

/-- The CPU path of jitc_prefix_sum for a given block size (`size` and
`blocks = 1` when the pool has a single worker, jitc_llvm_block_size
otherwise). -/
def prefix_sum_cpu {R : Type} [AddMonoid R] (block_size : Nat) (a : List R)
    (exclusive : Bool) : List R :=
  prefix_sum_cpu_go a.length block_size a exclusive

/-- In-place execution of the exclusive sum_reduce_2 loop over a single
memory region (`out == in`): at step `i` the loop reads `mem[i]` into
`value`, overwrites `mem[i]` with `accum` and continues with
`accum + value`.  One fuel unit per loop iteration. -/
def sum_reduce_2_exc_mem {R : Type} [AddMonoid R] :
    Nat → List R → Nat → R → List R
  | 0, mem, _, _ => mem
  | fuel + 1, mem, i, accum =>
    sum_reduce_2_exc_mem fuel (mem.set i accum) (i + 1) (accum + mem.getD i 0)

/-- In-place execution of the inclusive sum_reduce_2 loop over a single
memory region (`value = mem[i]; accum += value; mem[i] = accum`). -/
def sum_reduce_2_inc_mem {R : Type} [AddMonoid R] :
    Nat → List R → Nat → R → List R
  | 0, mem, _, _ => mem
  | fuel + 1, mem, i, accum =>
    sum_reduce_2_inc_mem fuel (mem.set i (accum + mem.getD i 0)) (i + 1)
      (accum + mem.getD i 0)

/-- The silent signedness conversion at the top of jitc_prefix_sum:
`if (vt == VarType::Int32) vt = VarType::UInt32;`. -/
def prefix_sum_convert (vt : VarType) : VarType :=
  if vt = VarType.Int32 then VarType.UInt32 else vt

/-- The element types accepted by the sum_reduce_1 / sum_reduce_2 dispatchers
of util.cpp; every other type hits the `default:` branch, which raises. -/
def sum_reduce_supported (vt : VarType) : Bool :=
  match vt with
  | VarType.UInt32 => true
  | VarType.UInt64 => true
  | VarType.Float32 => true
  | VarType.Float64 => true
  | _ => false

/-- Entry point jitc_prefix_sum (util.cpp), CPU backend: a zero element count
returns immediately with the output untouched; Int32 is silently
reinterpreted as UInt32; the per-block dispatch raises for any element type
outside {UInt32, UInt64, Float32, Float64} (in the source the raise fires
inside the submitted work item, surfacing when the task executes).  The value
list `a` carries the semantic contents for the Lean type standing in for the
dispatched element type. -/
def jitc_prefix_sum {R : Type} [AddMonoid R] (vt : VarType) (exclusive : Bool)
    (block_size : Nat) (a : List R) : Except JitFault (List R) :=
  if a.length = 0 then Except.ok a
  else if sum_reduce_supported (prefix_sum_convert vt) then
    Except.ok (prefix_sum_cpu block_size a exclusive)
  else Except.error (JitFault.raised "jit_prefix_sum(): type is not supported!")


/-- Phase-1 work item of the CPU path of jitc_compress (util.cpp): the
per-block count `accum += (uint32) in[i]` stored into scratch[index]. -/
def compress_block_count (blk : List Nat) : Nat :=
  blk.foldl (fun accum value => accum + value) 0

/-- Phase-2 work item of the CPU path of jitc_compress: walk one block with
the carried-in base offset `accum`, emitting the write `out[accum] = i` for
every non-zero byte and advancing `accum` by the byte value.  The result is
the list of write events (position, source index). -/
def compress_block_write (accum : Nat) (start : Nat) : List Nat → List (Nat × Nat)
  | [] => []
  | value :: rest =>
    (if value ≠ 0 then [(accum, start)] else [])
      ++ compress_block_write (accum + value) (start + 1) rest

/-- All phase-2 write events of the CPU path of jitc_compress: block j
starts at the source offset accumulated from the previous block lengths and
uses accums[j] as carried-in base. -/
def compress_phase2 : List (List Nat) → List Nat → Nat → List (Nat × Nat)
  | [], _, _ => []
  | _ :: _, [], _ => []
  | blk :: rest, accum :: accums, start =>
    compress_block_write accum start blk
      ++ compress_phase2 rest accums (start + blk.length)

/-- Replay a list of write events into a memory modelled as a map from
position to the last value written there, starting from the contents `f`. -/
def apply_writes_from (f : Nat → Option Nat) : List (Nat × Nat) → Nat → Option Nat
  | [] => f
  | pv :: rest => apply_writes_from (Function.update f pv.1 (some pv.2)) rest

/-- Replay a list of write events into an initially unwritten memory. -/
def apply_writes (ws : List (Nat × Nat)) : Nat → Option Nat :=
  apply_writes_from (fun _ => none) ws

/-- The source indices of the non-zero bytes of a byte list, in increasing
order: the specification of the compacted index list. -/
def oneIndices (start : Nat) : List Nat → List Nat
  | [] => []
  | value :: rest =>
    (if value ≠ 0 then [start] else []) ++ oneIndices (start + 1) rest

/-- The carried-in base offsets of the phase-2 blocks of jitc_compress: the
exclusive prefix sum over the per-block partial counts when there is more
than one block (a recursive call to jitc_prefix_sum with VarType::UInt32 —
the counts are bounded by the uint32 element count, so Nat arithmetic is
exact); with a single block the scratch buffer stays null and the carry
is 0. -/
def compress_accums (block_size : Nat) (b : List Nat) : List Nat :=
  if 1 < (chunks block_size b).length then
    prefix_sum_cpu block_size ((chunks block_size b).map compress_block_count) true
  else List.replicate (chunks block_size b).length 0

/-- The count stored into count_out by the phase-2 block whose end reaches
the input size (the last block): its carried-in base plus its own count. -/
def compress_count (block_size : Nat) (b : List Nat) : Nat :=
  (compress_accums block_size b).getD ((chunks block_size b).length - 1) 0
    + ((chunks block_size b).map compress_block_count).getD
        ((chunks block_size b).length - 1) 0

/-- CPU path of jitc_compress (util.cpp): per-block counts (phase 1), the
exclusive prefix sum over the block partials, and a second pass that writes
source indices at the carried-in base offsets.  Returns the written region
out[0..count) together with the count. -/
def jitc_compress_cpu (block_size : Nat) (b : List Nat) : List Nat × Nat :=
  ((List.range (compress_count block_size b)).map
      (fun p =>
        (apply_writes
          (compress_phase2 (chunks block_size b) (compress_accums block_size b) 0)
          p).getD 0),
   compress_count block_size b)

/-- Entry point jitc_compress: a zero element count returns a zero count
immediately, before any dispatch; no fault is raised on this path. -/
def jitc_compress (block_size : Nat) (b : List Nat) : List Nat × Nat :=
  if b.length = 0 then ([], 0)
  else jitc_compress_cpu block_size b

/-- Result of the entry validation of jitc_mkperm. -/
inductive MkpermEntry
  | zeroSizeReturn
  | proceed
deriving DecidableEq, Repr

/-- The entry checks of jitc_mkperm (util.cpp): a zero size returns 0 before
any further validation; with a non-zero size, a zero bucket count is fatal
(jitc_fail).  No state is touched before these checks; only the validation
is modelled, as every claim against jitc_mkperm concerns it. -/
def jitc_mkperm_entry (size bucket_count : Nat) : Except JitFault MkpermEntry :=
  if size = 0 then Except.ok MkpermEntry.zeroSizeReturn
  else if bucket_count = 0 then
    Except.error (JitFault.fatal "jit_mkperm(): bucket_count cannot be zero!")
  else Except.ok MkpermEntry.proceed

/-- CUDAThreadState::jitc_memset_async of src/cuda_internal.cpp over a
byte-level memory model: `mem` holds the byte contents of the target region,
`src` the `isize`-byte source pattern.  The element-size check precedes
everything; a zero size returns right after it; an all-zero pattern is
converted to a byte-level memset (`size *= isize; isize = 1`); otherwise
`size` copies of the pattern are stored (the isize = 8 case runs a fill
kernel with the same contents).  Returns (fault?, new contents); on a fault
the contents are untouched. -/
def jitc_memset_async (mem : List Nat) (size isize : Nat) (src : List Nat) :
    Option JitFault × List Nat :=
  if ¬(isize = 1 ∨ isize = 2 ∨ isize = 4 ∨ isize = 8) then
    (some (JitFault.raised
      "CUDAThreadState::jit_memset_async(): invalid element size (must be 1, 2, 4, or 8)!"),
     mem)
  else if size = 0 then (none, mem)
  else if src.take isize = List.replicate isize 0 then
    (none, List.replicate (size * isize) 0 ++ mem.drop (size * isize))
  else
    (none, (List.replicate size (src.take isize)).flatten ++ mem.drop (size * isize))

/-- The operation dispatch of jitc_reduce_create<Value> (util.cpp); its
`default:` branch raises "unsupported reduction type". -/
def reduce_op_supported (op : ReduceOp) : Bool :=
  match op with
  | ReduceOp.Add => true
  | ReduceOp.Mul => true
  | ReduceOp.Max => true
  | ReduceOp.Min => true
  | ReduceOp.Or => true
  | ReduceOp.And => true
  | ReduceOp.None => false

/-- The type dispatch of jitc_reduce_create(VarType, ReduceOp); Void, Bool
and Pointer hit the `default:` branch, which raises "unsupported data
type". -/
def reduce_type_supported (vt : VarType) : Bool :=
  match vt with
  | VarType.Int8 => true
  | VarType.UInt8 => true
  | VarType.Int16 => true
  | VarType.UInt16 => true
  | VarType.Int32 => true
  | VarType.UInt32 => true
  | VarType.Int64 => true
  | VarType.UInt64 => true
  | VarType.Float16 => true
  | VarType.Float32 => true
  | VarType.Float64 => true
  | _ => false

/-- Dispatcher jitc_reduce_create(VarType, ReduceOp): the outer switch on
the data type raises first, then the inner switch on the operation. -/
def jitc_reduce_create (vt : VarType) (op : ReduceOp) : Except JitFault Unit :=
  if ¬ reduce_type_supported vt then
    Except.error (JitFault.raised "jit_reduce_create(): unsupported data type!")
  else if ¬ reduce_op_supported op then
    Except.error (JitFault.raised "jit_reduce_create(): unsupported reduction type!")
  else Except.ok ()

/-- make_int_type_unsigned of util.cpp. -/
def make_int_type_unsigned (vt : VarType) : VarType :=
  match vt with
  | VarType.Int8 => VarType.UInt8
  | VarType.Int16 => VarType.UInt16
  | VarType.Int32 => VarType.UInt32
  | VarType.Int64 => VarType.UInt64
  | _ => vt

/-- The types accepted by jitc_block_copy_create / jitc_block_sum_create. -/
def block_op_type_supported (vt : VarType) : Bool :=
  match vt with
  | VarType.UInt8 => true
  | VarType.UInt16 => true
  | VarType.UInt32 => true
  | VarType.UInt64 => true
  | VarType.Float32 => true
  | VarType.Float64 => true
  | _ => false

/-- Validation structure of jitc_block_copy (jitc_block_sum is identical):
a zero block size raises; block size one degenerates to memcpy before any
type dispatch; otherwise the type, made unsigned, must have a block kernel.
The element count is never validated — a zero size is accepted. -/
def jitc_block_copy_checks (vt : VarType) (_size block_size : Nat) :
    Option JitFault :=
  if block_size = 0 then
    some (JitFault.raised "jit_block_copy(): block_size cannot be zero!")
  else if block_size = 1 then none
  else if ¬ block_op_type_supported (make_int_type_unsigned vt) then
    some (JitFault.raised "jit_block_copy_create(): unsupported data type!")
  else none


/-- ScheduledVariable of eval.cpp: the (size, index) pair pushed by the
graph traversal. -/
structure ScheduledVariable where
  size : Nat
  index : Nat
deriving DecidableEq, Repr

/-- The std::sort comparator of jitc_eval (eval.cpp): strictly greater size
first; among equal sizes, strictly smaller identifier first. -/
def schedule_cmp (a b : ScheduledVariable) : Bool :=
  if a.size > b.size then true
  else if a.size < b.size then false
  else if a.index > b.index then false
  else if a.index < b.index then true
  else false

/-- The non-strict order induced by the comparator (`¬ cmp b a`): the
relation the sorted schedule satisfies between its entries. -/
def schedule_le (a b : ScheduledVariable) : Prop :=
  schedule_cmp b a = false

instance schedule_le_decidable : DecidableRel schedule_le := fun a b => by
  unfold schedule_le
  infer_instance

instance schedule_le_total : IsTotal ScheduledVariable schedule_le := ⟨by
  have hiff : ∀ a b : ScheduledVariable, schedule_le a b ↔
      (b.size < a.size ∨ (a.size = b.size ∧ a.index ≤ b.index)) := by
    intro a b
    unfold schedule_le schedule_cmp
    split_ifs <;> simp <;> omega
  intro a b
  rw [hiff, hiff]
  omega⟩

instance schedule_le_trans : IsTrans ScheduledVariable schedule_le := ⟨by
  have hiff : ∀ a b : ScheduledVariable, schedule_le a b ↔
      (b.size < a.size ∨ (a.size = b.size ∧ a.index ≤ b.index)) := by
    intro a b
    unfold schedule_le schedule_cmp
    split_ifs <;> simp <;> omega
  intro a b c hab hbc
  rw [hiff] at hab hbc ⊢
  omega⟩

/-- The sorted schedule.  std::sort guarantees a permutation ordered by the
comparator; the comparator ties only on fully equal pairs, so the sorted
sequence is unique and an insertion sort models std::sort exactly. -/
def jitc_eval_sort (l : List ScheduledVariable) : List ScheduledVariable :=
  List.insertionSort schedule_le l

/-- ScheduledGroup of eval.cpp: (size, start index, end index) into the flat
schedule array. -/
structure ScheduledGroup where
  size : Nat
  start : Nat
  stop : Nat
deriving DecidableEq, Repr

/-- The size of schedule entry i (the loops never read out of bounds, so a
default suffices). -/
def svSizeAt (s : List ScheduledVariable) (i : Nat) : Nat :=
  (s.getD i ⟨0, 0⟩).size

/-- The grouping loop of jitc_eval (`cur` = first entry of the group being
grown, `i` = next index): emits a group at every size boundary, and a final
group reaching the end of the schedule. -/
def schedule_groups_loop (s : List ScheduledVariable) (cur i : Nat) :
    List ScheduledGroup :=
  if i < s.length then
    if svSizeAt s (i - 1) ≠ svSizeAt s i then
      ScheduledGroup.mk (svSizeAt s cur) cur i :: schedule_groups_loop s i (i + 1)
    else schedule_groups_loop s cur (i + 1)
  else [⟨svSizeAt s cur, cur, s.length⟩]
termination_by s.length - i
decreasing_by
  all_goals omega

/-- The partition of jitc_eval into contiguous equal-size groups: a single
group when the first and last entries share one size (the schedule is sorted
by descending size, so every size is then equal), otherwise the
boundary-scanning loop from cur = 0, i = 1.  The empty case never arises
(jitc_eval returns early on an empty schedule). -/
def jitc_schedule_groups (s : List ScheduledVariable) : List ScheduledGroup :=
  if s.length = 0 then []
  else if svSizeAt s 0 = svSizeAt s (s.length - 1) then
    [⟨svSizeAt s 0, 0, s.length⟩]
  else schedule_groups_loop s 0 1

/-- A well-formed group chain over schedule `s` starting at index `cur`:
each group begins where told, carries the size of its first entry, is
non-empty, contains only entries of its size, differs in size from its
successor, and the chain ends exactly at the schedule's length.  This is
the coverage/equal-size/maximality specification of the partition. -/
def groups_chain (s : List ScheduledVariable) : Nat → List ScheduledGroup → Prop
  | cur, [] => cur = s.length
  | cur, g :: gs =>
    g.start = cur ∧ g.size = svSizeAt s cur ∧ g.start < g.stop
    ∧ (∀ j, g.start ≤ j → j < g.stop → svSizeAt s j = g.size)
    ∧ (match gs with
       | [] => True
       | g2 :: _ => g.size ≠ g2.size)
    ∧ groups_chain s g.stop gs


/-- The recorded-loop builder of the Loop class (the test suite's loop.h),
bundled with the pieces of global state it touches: the PostponeSideEffects
flag, a fresh-identifier counter standing in for the variable store
(placeholder and loop-output nodes receive fresh identifiers), and the loop
nodes emitted so far.  m_index_p holds the contents of the caller's
identifier slots (the class keeps pointers into them, so they live here). -/
structure LoopState where
  state : Nat
  index_p : List Nat
  index_in : List Nat
  index_body : List Nat
  index_out : List Nat
  se_offset : Option Nat
  se_flag : Bool
  cond_mask : Option Nat
  size : Nat
  fresh : Nat
  flag_postpone : Bool
  emitted : List (Nat × List Nat × List Nat × Option Nat)
deriving DecidableEq, Repr

/-- A freshly constructed Loop (m_state = 0, m_se_offset = (uint32)-1 mapped
to none) in a world whose next unused identifier is fresh0 and whose
PostponeSideEffects flag reads flag0. -/
def Loop.new (fresh0 : Nat) (flag0 : Bool) : LoopState :=
  { state := 0, index_p := [], index_in := [], index_body := [], index_out := []
  , se_offset := none, se_flag := false, cond_mask := none, size := 0
  , fresh := fresh0, flag_postpone := flag0, emitted := [] }

/-- Loop::put: the slot pointer and the current identifier are pushed before
anything else; only then is the size checked for consistency, and the loop
size grows to the maximum.  Returns (fault?, state after the call) — on the
fault path the pushes have already happened. -/
def Loop.put (L : LoopState) (id sz : Nat) : Option JitFault × LoopState :=
  let L1 := { L with index_p := L.index_p ++ [id], index_in := L.index_in ++ [id] }
  if L.size ≠ 0 ∧ sz ≠ 1 ∧ sz ≠ L.size then
    (some (JitFault.raised "Loop.put(): loop variables have inconsistent sizes!"), L1)
  else (none, { L1 with size := max L.size sz })

/-- step(): interpose a placeholder on every slot.  Modelled from the spec:
jit_var_new_placeholder (external to the sources) creates a placeholder node
carrying a fresh identifier, which replaces the slot's content. -/
def Loop.step (L : LoopState) : LoopState :=
  { L with
    index_p := (List.range L.index_p.length).map (fun k => L.fresh + k)
    fresh := L.fresh + L.index_p.length }

/-- init(): raises when already initialized; in recording mode interposes
placeholders, captures the side-effect watermark and the current
PostponeSideEffects flag, sets the flag, and moves to state 1.  `watermark`
stands for the value of jit_side_effects_scheduled(Backend). -/
def Loop.init (L : LoopState) (watermark : Nat) : Option JitFault × LoopState :=
  if L.state ≠ 0 then (some (JitFault.raised "Loop(): was already initialized!"), L)
  else
    (none,
     { Loop.step L with
       se_offset := some watermark
       se_flag := L.flag_postpone
       flag_postpone := true
       state := 1 })

/-- cond_record(): the recording-mode state machine.  `m_state++` sits in
the switch scrutinee, so the state advances even on the raising paths.
`var_loop` abstracts jit_var_loop (external to the sources; modelled from
the spec: it emits one loop node from the saved mask, the body-entry
snapshot and the body-exit identifiers, and writes the final per-variable
identifiers into the array passed as its output) — the theorems hold for
every such function.  Returns (fault?, returned boolean, new state). -/
def Loop.cond_record (var_loop : Nat → List Nat → List Nat → List Nat)
    (L : LoopState) (mask : Nat) : Option JitFault × Bool × LoopState :=
  match L.state with
  | 1 =>
    let L1 := Loop.step { L with state := L.state + 1, cond_mask := some mask }
    (none, true, { L1 with index_body := L1.index_p })
  | 2 =>
    let L0 := { L with state := L.state + 1 }
    let outs := var_loop (L0.cond_mask.getD 0) L0.index_body L0.index_p
    (none, false,
     { L0 with
       index_out := outs
       index_p := outs
       flag_postpone := L0.se_flag
       emitted := L0.emitted
         ++ [(L0.cond_mask.getD 0, L0.index_body, outs, L0.se_offset)] })
  | 0 =>
    (some (JitFault.raised "Loop(): must be initialized first!"),
     false, { L with state := L.state + 1 })
  | _ =>
    (some (JitFault.raised "Loop(): invalid state!"),
     false, { L with state := L.state + 1 })

/-- The destructor's warning condition: any state other than 0 (never
initialized) or 3 (both cond() calls completed) logs "de-allocated in an
inconsistent state". -/
def Loop.destructor_warns (L : LoopState) : Bool :=
  L.state ≠ 0 && L.state ≠ 3


/-- Parameter classification of jitc_assemble (ParamType in the source). -/
inductive ParamType
  | Input
  | Output
  | Register
deriving DecidableEq, Repr

/-- The per-variable attributes jitc_assemble inspects when classifying a
scheduled variable of a group. -/
structure AsmVar where
  data : Bool
  literal : Bool
  vtype : VarType
  output_flag : Bool
  size : Nat
  side_effect : Bool
deriving DecidableEq, Repr

/-- The classification chain of jitc_assemble's per-variable loop: evaluated
data is an input; a live variable of the group's size flagged for output
gets freshly allocated memory and is an output; a literal pointer is an
input; everything else lives in registers. -/
def asm_param_type (group_size : Nat) (v : AsmVar) : ParamType :=
  if v.data then ParamType.Input
  else if v.output_flag ∧ v.size = group_size then ParamType.Output
  else if v.literal ∧ v.vtype = VarType.Pointer then ParamType.Input
  else ParamType.Register

/-- The reserved register base of jitc_assemble: `n_regs = 4` on the CUDA
backend, `n_regs = 1` on the LLVM backend. -/
def asm_reserved (backend : JitBackend) : Nat :=
  match backend with
  | JitBackend.CUDA => 4
  | JitBackend.LLVM => 1

/-- The assembly loop over one group: every scheduled variable, whatever its
classification, receives `reg_index = n_regs++`. -/
def jitc_assemble_regs_go (group_size : Nat) :
    Nat → List AsmVar → List (ParamType × Nat)
  | _, [] => []
  | n_regs, v :: rest =>
    (asm_param_type group_size v, n_regs)
      :: jitc_assemble_regs_go group_size (n_regs + 1) rest

/-- Register assignment of jitc_assemble for one scheduled group. -/
def jitc_assemble_regs (backend : JitBackend) (group_size : Nat)
    (vars : List AsmVar) : List (ParamType × Nat) :=
  jitc_assemble_regs_go group_size (asm_reserved backend) vars

/-- CUDA driver result of cuModuleLoadData, as far as jitc_run inspects
it. -/
inductive CUresult
  | success
  | outOfMemory
  | otherError (code : Nat)
deriving DecidableEq, Repr

/-- Outcome of the module-load sequence of jitc_run: how many
cuModuleLoadData attempts ran, how many jitc_malloc_trim calls happened,
and the result handed to cuda_check. -/
structure ModuleLoadTrace where
  attempts : Nat
  trims : Nat
  result : CUresult
deriving DecidableEq, Repr

/-- The module-load retry of jitc_run (eval.cpp): one cuModuleLoadData; if
it reports out-of-memory, trim the allocator's free pools
(jitc_malloc_trim) and retry exactly once; the result of the last attempt
goes to cuda_check.  `load n` is the driver's answer to attempt n. -/
def jitc_run_module_load (load : Nat → CUresult) : ModuleLoadTrace :=
  if load 0 = CUresult.outOfMemory then
    { attempts := 2, trims := 1, result := load 1 }
  else { attempts := 1, trims := 0, result := load 0 }

/-- cuda_check: fatal for anything but success. -/
def cuda_check_fatal (r : CUresult) : Bool :=
  r ≠ CUresult.success


/-- The blocked CPU reduction of jitc_reduce (util.cpp): accumulate each
block from the identity element of the Reduction lambda, then recursively
reduce the per-block partials (structural fuel as in the header; the direct
branch is the single-block case `target = out`). -/
def jitc_reduce_blocked_go (op : Nat → Nat → Nat) (identity : Nat) :
    Nat → Nat → List Nat → Nat
  | 0, _, l => l.foldl op identity
  | fuel + 1, block_size, l =>
    if 1 < (chunks block_size l).length ∧ 1 < block_size then
      jitc_reduce_blocked_go op identity fuel block_size
        ((chunks block_size l).map (fun blk => blk.foldl op identity))
    else l.foldl op identity

/-- The CPU path of jitc_reduce for one op/identity pair and block size. -/
def jitc_reduce_blocked (op : Nat → Nat → Nat) (identity : Nat)
    (block_size : Nat) (l : List Nat) : Nat :=
  jitc_reduce_blocked_go op identity l.length block_size l

/-- Little-endian packing of one 4-byte group into the uint32 value that the
all/any reduction reads when it reinterprets the byte array. -/
def packBytes : List Nat → Nat
  | [b0, b1, b2, b3] => b0 + 2 ^ 8 * b1 + 2 ^ 16 * b2 + 2 ^ 24 * b3
  | _ => 0

/-- The uint32 view of a byte array whose length is a multiple of four. -/
def toWords (bytes : List Nat) : List Nat :=
  (chunks 4 bytes).map packBytes

/-- The reduced scalar of jitc_all: pad the `(size+3)/4*4 - size` trailing
bytes with true (byte 1) by async memset, then reduce the uint32 view with
ReduceOp::And, whose Reduction lambda starts from `(UInt)-1`. -/
def jit_all_word (block_size : Nat) (values : List Nat) : Nat :=
  jitc_reduce_blocked Nat.land (2 ^ 32 - 1) block_size
    (toWords (values
      ++ List.replicate ((values.length + 3) / 4 * 4 - values.length) 1))

/-- The reduced scalar of jitc_any: pad with false (byte 0), reduce with
ReduceOp::Or from identity 0. -/
def jit_any_word (block_size : Nat) (values : List Nat) : Nat :=
  jitc_reduce_blocked Nat.lor 0 block_size
    (toWords (values
      ++ List.replicate ((values.length + 3) / 4 * 4 - values.length) 0))

/-- The final test of jitc_all: `(out[0] & out[1] & out[2] & out[3]) != 0`
over the four little-endian bytes of the reduced scalar. -/
def bytes_and_nonzero (w : Nat) : Bool :=
  ((w &&& 255) &&& ((w >>> 8) &&& 255) &&& ((w >>> 16) &&& 255)
    &&& ((w >>> 24) &&& 255)) ≠ 0

/-- The final test of jitc_any: `(out[0] | out[1] | out[2] | out[3]) != 0`. -/
def bytes_or_nonzero (w : Nat) : Bool :=
  ((w &&& 255) ||| ((w >>> 8) &&& 255) ||| ((w >>> 16) &&& 255)
    ||| ((w >>> 24) &&& 255)) ≠ 0

/-- jitc_all (util.cpp; CUDAThreadState::jitc_all is identical modulo the
pinned staging buffer). -/
def jit_all (block_size : Nat) (values : List Nat) : Bool :=
  bytes_and_nonzero (jit_all_word block_size values)

/-- jitc_any (util.cpp; CUDAThreadState::jitc_any is identical modulo the
pinned staging buffer). -/
def jit_any (block_size : Nat) (values : List Nat) : Bool :=
  bytes_or_nonzero (jit_any_word block_size values)

-- ====================================================================
-- Theorems: block decomposition
-- ====================================================================

theorem chunks_nil {α : Type} (bs : Nat) : chunks bs ([] : List α) = [] := by
  unfold chunks
  rfl

theorem chunks_cons {α : Type} {bs : Nat} {l : List α} (hbs : bs ≠ 0) (hl : l ≠ []) :
    chunks bs l = l.take bs :: chunks bs (l.drop bs) := by
  obtain ⟨x, xs, rfl⟩ := List.exists_cons_of_ne_nil hl
  rw [chunks]
  simp [hbs]

/-- Concatenating the blocks recovers the input. -/
theorem chunks_flatten {α : Type} (bs : Nat) (l : List α) : (chunks bs l).flatten = l := by
  by_cases h1 : l = []
  · subst h1
    simp [chunks_nil]
  by_cases h2 : bs = 0
  · subst h2
    obtain ⟨x, xs, rfl⟩ := List.exists_cons_of_ne_nil h1
    rw [chunks]
    simp
  rw [chunks_cons h2 h1]
  simp only [List.flatten_cons]
  rw [chunks_flatten bs (l.drop bs)]
  exact List.take_append_drop bs l
termination_by l.length
decreasing_by
  have h3 : 0 < l.length := List.length_pos.mpr h1
  have h4 : 0 < bs := Nat.pos_of_ne_zero h2
  simp only [List.length_drop]
  omega

/-- A block list never has more entries than elements. -/
theorem chunks_length_le {α : Type} (bs : Nat) (l : List α) :
    (chunks bs l).length ≤ l.length := by
  by_cases h1 : l = []
  · subst h1
    simp [chunks_nil]
  by_cases h2 : bs = 0
  · subst h2
    obtain ⟨x, xs, rfl⟩ := List.exists_cons_of_ne_nil h1
    rw [chunks]
    simp
  rw [chunks_cons h2 h1]
  have h3 : 0 < l.length := List.length_pos.mpr h1
  have h4 : 0 < bs := Nat.pos_of_ne_zero h2
  have h5 := chunks_length_le bs (l.drop bs)
  simp only [List.length_cons]
  simp only [List.length_drop] at h5
  omega
termination_by l.length
decreasing_by
  simp only [List.length_drop]
  omega

/-- When everything fits into a single block, the decomposition is trivial. -/
theorem chunks_of_le {α : Type} {bs : Nat} {l : List α} (hl : l ≠ []) (hle : l.length ≤ bs) :
    chunks bs l = [l] := by
  have h2 : bs ≠ 0 := by
    have h3 : 0 < l.length := List.length_pos.mpr hl
    omega
  rw [chunks_cons h2 hl]
  rw [List.take_of_length_le hle, List.drop_eq_nil_of_le hle, chunks_nil]

/-- With blocks of size at least two and more than one block, the number of
blocks strictly decreases: this bounds the recursion depth of the recursive
scans of util.cpp. -/
theorem chunks_length_lt {α : Type} {bs : Nat} {l : List α} (hbs : 1 < bs)
    (hn : 1 < (chunks bs l).length) : (chunks bs l).length < l.length := by
  by_cases h1 : l = []
  · subst h1
    simp [chunks_nil] at hn
  by_cases hle : l.length ≤ bs
  · rw [chunks_of_le h1 hle] at hn
    simp at hn
  have h2 : bs ≠ 0 := by omega
  rw [chunks_cons h2 h1]
  have h5 := chunks_length_le bs (l.drop bs)
  simp only [List.length_cons]
  simp only [List.length_drop] at h5
  have h3 : 0 < l.length := List.length_pos.mpr h1
  omega

-- ====================================================================
-- Theorems: prefix sum
-- ====================================================================

theorem sum_reduce_2_exc_length {R : Type} [Add R] (accum : R) (l : List R) :
    (sum_reduce_2_exc accum l).length = l.length := by
  induction l generalizing accum with
  | nil => rfl
  | cons x xs ih => simp [sum_reduce_2_exc, ih]

theorem sum_reduce_2_inc_length {R : Type} [Add R] (accum : R) (l : List R) :
    (sum_reduce_2_inc accum l).length = l.length := by
  induction l generalizing accum with
  | nil => rfl
  | cons x xs ih => simp [sum_reduce_2_inc, ih]

theorem foldl_add_eq_add_sum {R : Type} [AddMonoid R] (a : R) (l : List R) :
    l.foldl (· + ·) a = a + l.sum := by
  induction l generalizing a with
  | nil => simp
  | cons x xs ih => simp [ih, add_assoc]

theorem sum_reduce_1_eq_sum {R : Type} [AddMonoid R] (blk : List R) :
    sum_reduce_1 blk = blk.sum := by
  simp [sum_reduce_1, foldl_add_eq_add_sum]

theorem sum_reduce_2_exc_append {R : Type} [AddMonoid R] (accum : R) (l1 l2 : List R) :
    sum_reduce_2_exc accum (l1 ++ l2)
      = sum_reduce_2_exc accum l1 ++ sum_reduce_2_exc (accum + l1.sum) l2 := by
  induction l1 generalizing accum with
  | nil => simp [sum_reduce_2_exc]
  | cons x xs ih => simp [sum_reduce_2_exc, ih, add_assoc]

theorem sum_reduce_2_inc_append {R : Type} [AddMonoid R] (accum : R) (l1 l2 : List R) :
    sum_reduce_2_inc accum (l1 ++ l2)
      = sum_reduce_2_inc accum l1 ++ sum_reduce_2_inc (accum + l1.sum) l2 := by
  induction l1 generalizing accum with
  | nil => simp [sum_reduce_2_inc]
  | cons x xs ih => simp [sum_reduce_2_inc, ih, add_assoc]

theorem sum_reduce_2_append {R : Type} [AddMonoid R] (accum : R) (l1 l2 : List R)
    (exclusive : Bool) :
    sum_reduce_2 accum (l1 ++ l2) exclusive
      = sum_reduce_2 accum l1 exclusive ++ sum_reduce_2 (accum + l1.sum) l2 exclusive := by
  cases exclusive <;>
    simp [sum_reduce_2, sum_reduce_2_exc_append, sum_reduce_2_inc_append]

/-- Scanning each block from the exclusive scan of the block sums and
concatenating is the same as scanning the concatenation: the algebraic heart
of the two-phase decomposition. -/
theorem scan_blocks {R : Type} [AddMonoid R] (exclusive : Bool) :
    ∀ (blks : List (List R)) (accum : R),
      ((blks.zip (sum_reduce_2_exc accum (blks.map sum_reduce_1))).map
        (fun p => sum_reduce_2 p.2 p.1 exclusive)).flatten
      = sum_reduce_2 accum blks.flatten exclusive
  | [], accum => by simp [sum_reduce_2, sum_reduce_2_exc, sum_reduce_2_inc]
  | blk :: rest, accum => by
    simp only [List.map_cons, sum_reduce_2_exc, List.zip_cons_cons, List.flatten_cons]
    rw [scan_blocks exclusive rest (accum + sum_reduce_1 blk)]
    rw [sum_reduce_2_append accum blk rest.flatten exclusive, sum_reduce_1_eq_sum]

/-- Any amount of fuel computes the single-pass scan: every branch of the
recursion is a correct scan. -/
theorem prefix_sum_cpu_go_eq {R : Type} [AddMonoid R] (fuel block_size : Nat)
    (a : List R) (exclusive : Bool) :
    prefix_sum_cpu_go fuel block_size a exclusive = sum_reduce_2 0 a exclusive := by
  induction fuel generalizing a exclusive with
  | zero => rfl
  | succ fuel ih =>
    rw [prefix_sum_cpu_go]
    split
    · rw [ih]
      have h2 : sum_reduce_2 (0 : R) ((chunks block_size a).map sum_reduce_1) true
          = sum_reduce_2_exc 0 ((chunks block_size a).map sum_reduce_1) := by
        simp [sum_reduce_2]
      rw [h2, scan_blocks exclusive (chunks block_size a) 0, chunks_flatten]
    · rfl

/-- The blockwise two-phase CPU path computes exactly the single-pass scan. -/
theorem prefix_sum_cpu_eq {R : Type} [AddMonoid R] (block_size : Nat) (a : List R)
    (exclusive : Bool) :
    prefix_sum_cpu block_size a exclusive = sum_reduce_2 0 a exclusive :=
  prefix_sum_cpu_go_eq a.length block_size a exclusive

theorem sum_reduce_2_exc_getD {R : Type} [AddMonoid R] (accum : R) (l : List R) :
    ∀ i, i < l.length → (sum_reduce_2_exc accum l).getD i 0 = accum + (l.take i).sum := by
  induction l generalizing accum with
  | nil => intro i h; simp at h
  | cons x xs ih =>
    intro i h
    cases i with
    | zero => simp [sum_reduce_2_exc]
    | succ i =>
      simp only [sum_reduce_2_exc, List.getD_cons_succ, List.take_succ_cons,
        List.sum_cons]
      rw [ih (accum + x) i (by simp at h; omega), add_assoc]

theorem sum_reduce_2_inc_getD {R : Type} [AddMonoid R] (accum : R) (l : List R) :
    ∀ i, i < l.length → (sum_reduce_2_inc accum l).getD i 0 = accum + (l.take (i + 1)).sum := by
  induction l generalizing accum with
  | nil => intro i h; simp at h
  | cons x xs ih =>
    intro i h
    cases i with
    | zero => simp [sum_reduce_2_inc]
    | succ i =>
      simp only [sum_reduce_2_inc, List.getD_cons_succ, List.take_succ_cons,
        List.sum_cons]
      rw [ih (accum + x) i (by simp at h; omega), add_assoc]

theorem getD_append_length {R : Type} :
    ∀ (pre : List R) (x : R) (xs : List R) (d : R), (pre ++ x :: xs).getD pre.length d = x := by
  intro pre
  induction pre with
  | nil => intro x xs d; simp
  | cons p ps ih => intro x xs d; simpa using ih x xs d

theorem set_append_length {R : Type} :
    ∀ (pre : List R) (x : R) (xs : List R) (v : R),
      (pre ++ x :: xs).set pre.length v = pre ++ v :: xs := by
  intro pre
  induction pre with
  | nil => intro x xs v; simp
  | cons p ps ih => intro x xs v; simp [ih x xs v]

/-- Running the exclusive phase-2 loop in place over the region holding the
input produces the same contents that a separate output region would hold:
each cell is read once before it is overwritten and never read again, so the
output may alias the input. -/
theorem sum_reduce_2_exc_mem_eq {R : Type} [AddMonoid R] :
    ∀ (l pre : List R) (accum : R),
      sum_reduce_2_exc_mem l.length (pre ++ l) pre.length accum
        = pre ++ sum_reduce_2_exc accum l := by
  intro l
  induction l with
  | nil => intro pre accum; simp [sum_reduce_2_exc_mem, sum_reduce_2_exc]
  | cons x xs ih =>
    intro pre accum
    show sum_reduce_2_exc_mem (xs.length + 1) (pre ++ x :: xs) pre.length accum = _
    rw [sum_reduce_2_exc_mem]
    rw [set_append_length pre x xs accum, getD_append_length pre x xs 0]
    have h1 : pre ++ accum :: xs = (pre ++ [accum]) ++ xs := by simp
    have h2 : pre.length + 1 = (pre ++ [accum]).length := by simp
    rw [h1, h2, ih (pre ++ [accum]) (accum + x)]
    simp [sum_reduce_2_exc]

/-- In-place/aliased execution of the inclusive phase-2 loop. -/
theorem sum_reduce_2_inc_mem_eq {R : Type} [AddMonoid R] :
    ∀ (l pre : List R) (accum : R),
      sum_reduce_2_inc_mem l.length (pre ++ l) pre.length accum
        = pre ++ sum_reduce_2_inc accum l := by
  intro l
  induction l with
  | nil => intro pre accum; simp [sum_reduce_2_inc_mem, sum_reduce_2_inc]
  | cons x xs ih =>
    intro pre accum
    show sum_reduce_2_inc_mem (xs.length + 1) (pre ++ x :: xs) pre.length accum = _
    rw [sum_reduce_2_inc_mem]
    rw [set_append_length pre x xs _, getD_append_length pre x xs 0]
    have h1 : pre ++ (accum + x) :: xs = (pre ++ [accum + x]) ++ xs := by simp
    have h2 : pre.length + 1 = (pre ++ [accum + x]).length := by simp
    rw [h1, h2, ih (pre ++ [accum + x]) (accum + x)]
    simp [sum_reduce_2_inc]


-- ====================================================================
-- Theorems: stream compaction
-- ====================================================================

theorem compress_block_count_eq_sum (blk : List Nat) :
    compress_block_count blk = blk.sum := by
  simpa [compress_block_count] using foldl_add_eq_add_sum (0 : Nat) blk

theorem oneIndices_cons (v start : Nat) (rest : List Nat) :
    oneIndices start (v :: rest)
      = (if v ≠ 0 then [start] else []) ++ oneIndices (start + 1) rest := rfl

theorem oneIndices_append (l1 : List Nat) :
    ∀ (start : Nat) (l2 : List Nat),
      oneIndices start (l1 ++ l2)
        = oneIndices start l1 ++ oneIndices (start + l1.length) l2 := by
  induction l1 with
  | nil => intro start l2; simp [oneIndices]
  | cons v rest ih =>
    intro start l2
    have hlen : (v :: rest).length = rest.length + 1 := List.length_cons v rest
    have harith : start + 1 + rest.length = start + (v :: rest).length := by
      rw [hlen]; omega
    rw [List.cons_append, oneIndices_cons v start (rest ++ l2), ih (start + 1) l2,
      harith, oneIndices_cons v start rest, List.append_assoc]

theorem oneIndices_length : ∀ (l : List Nat) (start : Nat), (∀ v ∈ l, v ≤ 1) →
    (oneIndices start l).length = l.sum := by
  intro l
  induction l with
  | nil => intro start _; simp [oneIndices]
  | cons v rest ih =>
    intro start h
    have hv : v ≤ 1 := h v (by simp)
    have hrest : ∀ w ∈ rest, w ≤ 1 := fun w hw => h w (by simp [hw])
    rcases Nat.le_one_iff_eq_zero_or_eq_one.mp hv with h0 | h1
    · subst h0
      simp [oneIndices, ih (start + 1) hrest]
    · subst h1
      simp [oneIndices, ih (start + 1) hrest, Nat.add_comm]

theorem oneIndices_bounds : ∀ (l : List Nat) (start x : Nat), x ∈ oneIndices start l →
    start ≤ x ∧ x < start + l.length ∧ l.getD (x - start) 0 ≠ 0 := by
  intro l
  induction l with
  | nil => intro start x hx; simp [oneIndices] at hx
  | cons v rest ih =>
    intro start x hx
    simp only [oneIndices, List.mem_append] at hx
    rcases hx with hx | hx
    · by_cases hv : v ≠ 0
      · rw [if_pos hv] at hx
        simp only [List.mem_singleton] at hx
        subst hx
        refine ⟨Nat.le_refl _, by simp only [List.length_cons]; omega, ?_⟩
        simpa using hv
      · rw [if_neg hv] at hx
        simp at hx
    · obtain ⟨h1, h2, h3⟩ := ih (start + 1) x hx
      refine ⟨by omega, by simp only [List.length_cons]; omega, ?_⟩
      have hxs : x - start = (x - (start + 1)) + 1 := by omega
      rw [hxs, List.getD_cons_succ]
      exact h3

theorem oneIndices_pairwise : ∀ (l : List Nat) (start : Nat),
    List.Pairwise (fun a b => a < b) (oneIndices start l) := by
  intro l
  induction l with
  | nil => intro start; simp [oneIndices]
  | cons v rest ih =>
    intro start
    by_cases hv : v ≠ 0
    · simp only [oneIndices, if_pos hv, List.singleton_append]
      refine List.Pairwise.cons ?_ (ih (start + 1))
      intro x hx
      have h1 := (oneIndices_bounds rest (start + 1) x hx).1
      omega
    · simp only [oneIndices, if_neg hv, List.nil_append]
      exact ih (start + 1)

theorem compress_block_write_eq : ∀ (blk : List Nat) (accum start : Nat),
    (∀ v ∈ blk, v ≤ 1) →
    compress_block_write accum start blk
      = (List.range' accum (compress_block_count blk)).zip (oneIndices start blk) := by
  intro blk
  induction blk with
  | nil =>
    intro accum start _
    simp [compress_block_write, compress_block_count, oneIndices]
  | cons v rest ih =>
    intro accum start h
    have hv : v ≤ 1 := h v (by simp)
    have hrest : ∀ w ∈ rest, w ≤ 1 := fun w hw => h w (by simp [hw])
    rw [compress_block_count_eq_sum]
    rcases Nat.le_one_iff_eq_zero_or_eq_one.mp hv with h0 | h1
    · subst h0
      rw [List.sum_cons]
      simp only [compress_block_write, oneIndices, Nat.add_zero, Nat.zero_add,
        if_neg (by simp : ¬(0 ≠ 0)), List.nil_append]
      rw [ih accum (start + 1) hrest, compress_block_count_eq_sum]
    · subst h1
      rw [List.sum_cons, Nat.add_comm 1 rest.sum]
      simp only [compress_block_write, oneIndices,
        if_pos (by simp : (1 : Nat) ≠ 0), List.singleton_append]
      rw [List.range'_succ, List.zip_cons_cons,
        ih (accum + 1) (start + 1) hrest, compress_block_count_eq_sum]

theorem compress_phase2_eq : ∀ (blks : List (List Nat)) (base start : Nat),
    (∀ blk ∈ blks, ∀ v ∈ blk, v ≤ 1) →
    compress_phase2 blks (sum_reduce_2_exc base (blks.map compress_block_count)) start
      = (List.range' base ((blks.map compress_block_count).sum)).zip
          (oneIndices start blks.flatten) := by
  intro blks
  induction blks with
  | nil =>
    intro base start _
    simp [compress_phase2, oneIndices, sum_reduce_2_exc]
  | cons blk rest ih =>
    intro base start h
    have hblk : ∀ v ∈ blk, v ≤ 1 := h blk (by simp)
    have hrest : ∀ b2 ∈ rest, ∀ v ∈ b2, v ≤ 1 := fun b2 hb2 => h b2 (by simp [hb2])
    simp only [List.map_cons, sum_reduce_2_exc, compress_phase2, List.flatten_cons,
      List.sum_cons]
    rw [compress_block_write_eq blk base start hblk,
      ih (base + compress_block_count blk) (start + blk.length) hrest,
      oneIndices_append blk start rest.flatten]
    have hlen : (List.range' base (compress_block_count blk)).length
        = (oneIndices start blk).length := by
      rw [List.length_range', oneIndices_length blk start hblk,
        compress_block_count_eq_sum]
    rw [← List.zip_append hlen]
    have hr : List.range' base (compress_block_count blk)
          ++ List.range' (base + compress_block_count blk)
              ((rest.map compress_block_count).sum)
        = List.range' base
            (compress_block_count blk + (rest.map compress_block_count).sum) := by
      have h2 := List.range'_append base (compress_block_count blk)
        ((rest.map compress_block_count).sum) 1
      simp only [Nat.one_mul] at h2
      rw [h2, Nat.add_comm]
    rw [hr]

theorem apply_writes_range : ∀ (vals : List Nat) (off : Nat) (f : Nat → Option Nat)
    (q : Nat),
    apply_writes_from f ((List.range' off vals.length).zip vals) q
    = if off ≤ q ∧ q < off + vals.length then some (vals.getD (q - off) 0)
      else f q := by
  intro vals
  induction vals with
  | nil =>
    intro off f q
    show f q = _
    rw [List.length_nil, if_neg (by omega)]
  | cons v rest ih =>
    intro off f q
    simp only [List.length_cons]
    rw [List.range'_succ, List.zip_cons_cons]
    show apply_writes_from (Function.update f off (some v))
      ((List.range' (off + 1) rest.length).zip rest) q = _
    rw [ih (off + 1) (Function.update f off (some v)) q]
    by_cases h1 : off + 1 ≤ q ∧ q < off + 1 + rest.length
    · rw [if_pos h1, if_pos (by omega)]
      have hq : q - off = (q - (off + 1)) + 1 := by omega
      rw [hq, List.getD_cons_succ]
    · rw [if_neg h1]
      by_cases h2 : q = off
      · subst h2
        rw [Function.update_same, if_pos (by omega), Nat.sub_self]
        simp
      · rw [Function.update_noteq h2, if_neg (by omega)]

theorem map_range_getD : ∀ (l : List Nat),
    (List.range l.length).map (fun p => l.getD p 0) = l := by
  intro l
  induction l with
  | nil => simp
  | cons x rest ih =>
    rw [List.length_cons, List.range_succ_eq_map, List.map_cons]
    simp only [List.getD_cons_zero, List.map_map]
    congr 1

theorem chunks_mem_le {bs : Nat} {b : List Nat} (hb : ∀ v ∈ b, v ≤ 1) :
    ∀ blk ∈ chunks bs b, ∀ v ∈ blk, v ≤ 1 := by
  intro blk hblk v hv
  apply hb
  rw [← chunks_flatten bs b]
  exact List.mem_flatten.mpr ⟨blk, hblk, hv⟩

theorem compress_accums_eq (block_size : Nat) (b : List Nat) (hne : b ≠ []) :
    compress_accums block_size b
      = sum_reduce_2_exc 0 ((chunks block_size b).map compress_block_count) := by
  have hblks : chunks block_size b ≠ [] := by
    intro hh
    apply hne
    rw [← chunks_flatten block_size b, hh]
    rfl
  unfold compress_accums
  split
  · rw [prefix_sum_cpu_eq]
    simp [sum_reduce_2]
  · rename_i hlen
    have h1 : 0 < (chunks block_size b).length := List.length_pos.mpr hblks
    have h2 : (chunks block_size b).length = 1 := by omega
    obtain ⟨blk, hb1⟩ := List.length_eq_one.mp h2
    rw [hb1]
    simp [sum_reduce_2_exc]

theorem compress_counts_sum (block_size : Nat) (b : List Nat) :
    ((chunks block_size b).map compress_block_count).sum = b.sum := by
  have h1 : (chunks block_size b).map compress_block_count
      = (chunks block_size b).map List.sum :=
    List.map_congr_left (fun blk _ => compress_block_count_eq_sum blk)
  rw [h1, ← List.sum_flatten, chunks_flatten]

theorem compress_count_eq (block_size : Nat) (b : List Nat) (hne : b ≠ []) :
    compress_count block_size b = b.sum := by
  have hblks : chunks block_size b ≠ [] := by
    intro hh
    apply hne
    rw [← chunks_flatten block_size b, hh]
    rfl
  have hm : 0 < (chunks block_size b).length := List.length_pos.mpr hblks
  have hmlen : ((chunks block_size b).map compress_block_count).length
      = (chunks block_size b).length := List.length_map _ _
  unfold compress_count
  rw [compress_accums_eq block_size b hne]
  rw [sum_reduce_2_exc_getD 0 _ ((chunks block_size b).length - 1) (by omega)]
  rw [List.getD_eq_getElem _ 0 (by omega : (chunks block_size b).length - 1
    < ((chunks block_size b).map compress_block_count).length)]
  rw [Nat.zero_add]
  have hs := List.sum_take_succ ((chunks block_size b).map compress_block_count)
    ((chunks block_size b).length - 1) (by omega)
  rw [← hs]
  have h3 : (chunks block_size b).length - 1 + 1
      = ((chunks block_size b).map compress_block_count).length := by omega
  rw [h3, List.take_length, compress_counts_sum]

/-- The CPU path of jitc_compress computes exactly the increasing list of
indices of the non-zero bytes together with their number. -/
theorem jitc_compress_cpu_eq (block_size : Nat) (b : List Nat)
    (hb : ∀ v ∈ b, v ≤ 1) (hne : b ≠ []) :
    jitc_compress_cpu block_size b = (oneIndices 0 b, b.sum) := by
  have hcount := compress_count_eq block_size b hne
  have hlen1 : (oneIndices 0 b).length = b.sum := oneIndices_length b 0 hb
  have hwrites : compress_phase2 (chunks block_size b) (compress_accums block_size b) 0
      = (List.range' 0 ((oneIndices 0 b).length)).zip (oneIndices 0 b) := by
    rw [compress_accums_eq block_size b hne,
      compress_phase2_eq (chunks block_size b) 0 0 (chunks_mem_le hb),
      chunks_flatten, hlen1, compress_counts_sum]
  unfold jitc_compress_cpu
  rw [hcount, hwrites]
  have hout : ∀ q, apply_writes
      ((List.range' 0 ((oneIndices 0 b).length)).zip (oneIndices 0 b)) q
      = if 0 ≤ q ∧ q < 0 + (oneIndices 0 b).length
        then some ((oneIndices 0 b).getD (q - 0) 0)
        else none := by
    intro q
    show apply_writes_from (fun _ => none) _ q = _
    exact apply_writes_range (oneIndices 0 b) 0 (fun _ => none) q
  refine Prod.ext ?_ rfl
  show (List.range b.sum).map _ = oneIndices 0 b
  rw [← hlen1]
  rw [List.map_congr_left (g := fun p => (oneIndices 0 b).getD p 0) ?_]
  · exact map_range_getD (oneIndices 0 b)
  · intro p hp
    rw [hout p, if_pos ⟨Nat.zero_le p, by simpa using List.mem_range.mp hp⟩]
    simp


-- ====================================================================
-- Theorems: schedule ordering and grouping
-- ====================================================================

theorem schedule_le_iff (a b : ScheduledVariable) :
    schedule_le a b ↔ (b.size < a.size ∨ (a.size = b.size ∧ a.index ≤ b.index)) := by
  unfold schedule_le schedule_cmp
  split_ifs <;> simp <;> omega

theorem sorted_size_antitone (s : List ScheduledVariable)
    (hs : List.Sorted schedule_le s) :
    ∀ i j, i ≤ j → j < s.length → svSizeAt s j ≤ svSizeAt s i := by
  intro i j hij hj
  rcases Nat.eq_or_lt_of_le hij with h | h
  · subst h
    exact Nat.le_refl _
  · have hi : i < s.length := by omega
    have hr := hs.rel_get_of_lt (a := ⟨i, hi⟩) (b := ⟨j, hj⟩) (Fin.mk_lt_mk.mpr h)
    rw [schedule_le_iff] at hr
    have e1 : svSizeAt s i = (s.get ⟨i, hi⟩).size := by
      unfold svSizeAt
      rw [List.getD_eq_getElem s _ hi, List.get_eq_getElem]
    have e2 : svSizeAt s j = (s.get ⟨j, hj⟩).size := by
      unfold svSizeAt
      rw [List.getD_eq_getElem s _ hj, List.get_eq_getElem]
    rw [e1, e2]
    omega

theorem schedule_groups_loop_chain (s : List ScheduledVariable) (i cur : Nat)
    (h1 : cur < i) (h2 : i ≤ s.length)
    (h3 : ∀ j, cur ≤ j → j < i → svSizeAt s j = svSizeAt s cur) :
    groups_chain s cur (schedule_groups_loop s cur i) := by
  unfold schedule_groups_loop
  split
  case isTrue hlt =>
    split
    case isTrue hboundary =>
      have hrec := schedule_groups_loop_chain s (i + 1) i (by omega) (by omega)
        (fun j hj1 hj2 => by
          have hji : j = i := by omega
          rw [hji])
      rcases hrest : schedule_groups_loop s i (i + 1) with _ | ⟨g2, gs2⟩
      · rw [hrest] at hrec
        have hcontra : i = s.length := hrec
        omega
      · rw [hrest] at hrec
        refine ⟨rfl, rfl, h1, h3, ?_, ?_⟩
        · show svSizeAt s cur ≠ g2.size
          have hg2size : g2.size = svSizeAt s i := hrec.2.1
          have hcur : svSizeAt s (i - 1) = svSizeAt s cur :=
            h3 (i - 1) (by omega) (by omega)
          rw [hg2size, ← hcur]
          exact hboundary
        · show groups_chain s i (g2 :: gs2)
          exact hrec
    case isFalse hboundary =>
      refine schedule_groups_loop_chain s (i + 1) cur (by omega) (by omega) ?_
      intro j hj1 hj2
      rcases Nat.lt_or_ge j i with hj | hj
      · exact h3 j hj1 hj
      · have hji : j = i := by omega
        subst hji
        have he : svSizeAt s (j - 1) = svSizeAt s j := by
          by_contra hne2
          exact hboundary hne2
        rw [← he]
        exact h3 (j - 1) (by omega) (by omega)
  case isFalse hge =>
    refine ⟨rfl, rfl, ?_, ?_, trivial, rfl⟩
    · show cur < s.length
      omega
    · intro j hj1 hj2
      have hj1b : cur ≤ j := hj1
      have hj2b : j < s.length := hj2
      show svSizeAt s j = svSizeAt s cur
      exact h3 j hj1b (by omega)
termination_by s.length - i
decreasing_by
  all_goals omega


-- ====================================================================
-- Theorems: register assignment
-- ====================================================================

theorem jitc_assemble_regs_go_length (group_size : Nat) :
    ∀ (vars : List AsmVar) (n : Nat),
      (jitc_assemble_regs_go group_size n vars).length = vars.length := by
  intro vars
  induction vars with
  | nil => intro n; rfl
  | cons v rest ih => intro n; simp [jitc_assemble_regs_go, ih]

theorem jitc_assemble_regs_go_getD (group_size : Nat) :
    ∀ (vars : List AsmVar) (n k : Nat), k < vars.length →
      ((jitc_assemble_regs_go group_size n vars).getD k (ParamType.Register, 0)).2
        = n + k := by
  intro vars
  induction vars with
  | nil => intro n k h; simp at h
  | cons v rest ih =>
    intro n k h
    cases k with
    | zero => rfl
    | succ k =>
      show ((jitc_assemble_regs_go group_size (n + 1) rest).getD k _).2 = n + (k + 1)
      rw [ih (n + 1) k (by simp at h; omega)]
      omega


-- ====================================================================
-- Theorems: boolean all/any reduction
-- ====================================================================

theorem chunks_mem {α : Type} {bs : Nat} {l blk : List α}
    (hblk : blk ∈ chunks bs l) : ∀ x ∈ blk, x ∈ l := by
  intro x hx
  rw [← chunks_flatten bs l]
  exact List.mem_flatten.mpr ⟨blk, hblk, hx⟩

theorem chunks_length_of_dvd {α : Type} {bs : Nat} (hbs : bs ≠ 0) :
    ∀ (l : List α), bs ∣ l.length → ∀ c ∈ chunks bs l, c.length = bs := by
  intro l hdvd c hc
  by_cases h1 : l = []
  · subst h1
    simp [chunks_nil] at hc
  obtain ⟨k, hk⟩ := hdvd
  have hk0 : k ≠ 0 := by
    intro hk0
    subst hk0
    simp at hk
    exact h1 hk
  have hge : bs ≤ l.length := by
    rw [hk]
    exact Nat.le_mul_of_pos_right bs (Nat.pos_of_ne_zero hk0)
  rw [chunks_cons hbs h1] at hc
  rcases List.mem_cons.mp hc with rfl | hc2
  · rw [List.length_take]
    omega
  · refine chunks_length_of_dvd hbs (l.drop bs) ⟨k - 1, ?_⟩ c hc2
    rw [List.length_drop, hk]
    cases k with
    | zero => omega
    | succ k2 =>
      rw [Nat.add_sub_cancel, Nat.mul_succ]
      omega
termination_by l => l.length
decreasing_by
  simp only [List.length_drop]
  omega

theorem foldl_op_left (op : Nat → Nat → Nat)
    (hassoc : ∀ a b c, op (op a b) c = op a (op b c)) :
    ∀ (l : List Nat) (a b : Nat), l.foldl op (op a b) = op a (l.foldl op b) := by
  intro l
  induction l with
  | nil => intro a b; rfl
  | cons x xs ih =>
    intro a b
    show xs.foldl op (op (op a b) x) = _
    rw [hassoc a b x, ih a (op b x)]
    rfl

theorem foldl_closure (op : Nat → Nat → Nat) (P : Nat → Prop)
    (hclose : ∀ a b, P a → P b → P (op a b)) :
    ∀ (l : List Nat) (a : Nat), P a → (∀ x ∈ l, P x) → P (l.foldl op a) := by
  intro l
  induction l with
  | nil => intro a ha _; exact ha
  | cons x xs ih =>
    intro a ha hl
    exact ih (op a x) (hclose a x ha (hl x (by simp)))
      (fun y hy => hl y (by simp [hy]))

theorem foldl_map_foldl (op : Nat → Nat → Nat) (identity : Nat) (P : Nat → Prop)
    (hassoc : ∀ a b c, op (op a b) c = op a (op b c))
    (hPid : P identity)
    (hclose : ∀ a b, P a → P b → P (op a b))
    (hidL : ∀ x, P x → op identity x = x)
    (hidR : ∀ x, P x → op x identity = x) :
    ∀ (blks : List (List Nat)), (∀ blk ∈ blks, ∀ x ∈ blk, P x) →
      (blks.map (fun blk => blk.foldl op identity)).foldl op identity
        = blks.flatten.foldl op identity := by
  intro blks
  induction blks with
  | nil => intro _; rfl
  | cons blk rest ih =>
    intro h
    have hblk : ∀ x ∈ blk, P x := h blk (by simp)
    have hrest : ∀ b2 ∈ rest, ∀ x ∈ b2, P x := fun b2 hb2 => h b2 (by simp [hb2])
    have hp1 : P (blk.foldl op identity) :=
      foldl_closure op P hclose blk identity hPid hblk
    have estep : ∀ (L : List Nat),
        L.foldl op (blk.foldl op identity)
          = op (blk.foldl op identity) (L.foldl op identity) := by
      intro L
      rw [← hidR _ hp1, foldl_op_left op hassoc, hidR _ hp1]
    show (rest.map (fun b2 => b2.foldl op identity)).foldl op
        (op identity (blk.foldl op identity))
      = (blk ++ rest.flatten).foldl op identity
    rw [hidL _ hp1, List.foldl_append, estep, estep, ih hrest]

theorem jitc_reduce_blocked_go_eq (op : Nat → Nat → Nat) (identity : Nat)
    (P : Nat → Prop)
    (hassoc : ∀ a b c, op (op a b) c = op a (op b c))
    (hPid : P identity)
    (hclose : ∀ a b, P a → P b → P (op a b))
    (hidL : ∀ x, P x → op identity x = x)
    (hidR : ∀ x, P x → op x identity = x) :
    ∀ (fuel block_size : Nat) (l : List Nat), (∀ x ∈ l, P x) →
      jitc_reduce_blocked_go op identity fuel block_size l
        = l.foldl op identity := by
  intro fuel
  induction fuel with
  | zero => intro bs l _; rfl
  | succ fuel ih =>
    intro bs l h
    rw [jitc_reduce_blocked_go]
    split
    · rw [ih bs _ (fun x hx => by
        obtain ⟨blk, hblk, rfl⟩ := List.mem_map.mp hx
        exact foldl_closure op P hclose blk identity hPid
          (fun y hy => h y (chunks_mem hblk y hy)))]
      rw [foldl_map_foldl op identity P hassoc hPid hclose hidL hidR
        (chunks bs l) (fun blk hblk y hy => h y (chunks_mem hblk y hy))]
      rw [chunks_flatten]
    · rfl

theorem jitc_reduce_blocked_eq (op : Nat → Nat → Nat) (identity : Nat)
    (P : Nat → Prop)
    (hassoc : ∀ a b c, op (op a b) c = op a (op b c))
    (hPid : P identity)
    (hclose : ∀ a b, P a → P b → P (op a b))
    (hidL : ∀ x, P x → op identity x = x)
    (hidR : ∀ x, P x → op x identity = x)
    (block_size : Nat) (l : List Nat) (h : ∀ x ∈ l, P x) :
    jitc_reduce_blocked op identity block_size l = l.foldl op identity :=
  jitc_reduce_blocked_go_eq op identity P hassoc hPid hclose hidL hidR
    l.length block_size l h

theorem mask32_land {x : Nat} (h : x < 2 ^ 32) : (2 ^ 32 - 1) &&& x = x := by
  apply Nat.eq_of_testBit_eq
  intro i
  rw [Nat.testBit_land, Nat.testBit_two_pow_sub_one]
  by_cases hi : i < 32
  · simp [hi]
  · have hx : x.testBit i = false := by
      apply Nat.testBit_lt_two_pow
      calc x < 2 ^ 32 := h
        _ ≤ 2 ^ i := Nat.pow_le_pow_right (by omega) (by omega)
    simp [hx]


theorem list_len4 {α : Type} (l : List α) (h : l.length = 4) :
    ∃ a b c d, l = [a, b, c, d] := by
  rcases l with _ | ⟨a, l⟩
  · simp at h
  rcases l with _ | ⟨b, l⟩
  · simp at h
  rcases l with _ | ⟨c, l⟩
  · simp at h
  rcases l with _ | ⟨d, l⟩
  · simp at h
  rcases l with _ | ⟨e, l⟩
  · exact ⟨a, b, c, d, rfl⟩
  · simp only [List.length_cons] at h
    omega

theorem pack_land (b0 b1 b2 b3 c0 c1 c2 c3 : Nat)
    (h0 : b0 ≤ 1) (h1 : b1 ≤ 1) (h2 : b2 ≤ 1) (h3 : b3 ≤ 1)
    (h4 : c0 ≤ 1) (h5 : c1 ≤ 1) (h6 : c2 ≤ 1) (h7 : c3 ≤ 1) :
    packBytes [b0, b1, b2, b3] &&& packBytes [c0, c1, c2, c3]
      = packBytes [b0 &&& c0, b1 &&& c1, b2 &&& c2, b3 &&& c3] := by
  rcases Nat.le_one_iff_eq_zero_or_eq_one.mp h0 with rfl | rfl <;>
  rcases Nat.le_one_iff_eq_zero_or_eq_one.mp h1 with rfl | rfl <;>
  rcases Nat.le_one_iff_eq_zero_or_eq_one.mp h2 with rfl | rfl <;>
  rcases Nat.le_one_iff_eq_zero_or_eq_one.mp h3 with rfl | rfl <;>
  rcases Nat.le_one_iff_eq_zero_or_eq_one.mp h4 with rfl | rfl <;>
  rcases Nat.le_one_iff_eq_zero_or_eq_one.mp h5 with rfl | rfl <;>
  rcases Nat.le_one_iff_eq_zero_or_eq_one.mp h6 with rfl | rfl <;>
  rcases Nat.le_one_iff_eq_zero_or_eq_one.mp h7 with rfl | rfl <;>
  decide

theorem pack_lor (b0 b1 b2 b3 c0 c1 c2 c3 : Nat)
    (h0 : b0 ≤ 1) (h1 : b1 ≤ 1) (h2 : b2 ≤ 1) (h3 : b3 ≤ 1)
    (h4 : c0 ≤ 1) (h5 : c1 ≤ 1) (h6 : c2 ≤ 1) (h7 : c3 ≤ 1) :
    packBytes [b0, b1, b2, b3] ||| packBytes [c0, c1, c2, c3]
      = packBytes [b0 ||| c0, b1 ||| c1, b2 ||| c2, b3 ||| c3] := by
  rcases Nat.le_one_iff_eq_zero_or_eq_one.mp h0 with rfl | rfl <;>
  rcases Nat.le_one_iff_eq_zero_or_eq_one.mp h1 with rfl | rfl <;>
  rcases Nat.le_one_iff_eq_zero_or_eq_one.mp h2 with rfl | rfl <;>
  rcases Nat.le_one_iff_eq_zero_or_eq_one.mp h3 with rfl | rfl <;>
  rcases Nat.le_one_iff_eq_zero_or_eq_one.mp h4 with rfl | rfl <;>
  rcases Nat.le_one_iff_eq_zero_or_eq_one.mp h5 with rfl | rfl <;>
  rcases Nat.le_one_iff_eq_zero_or_eq_one.mp h6 with rfl | rfl <;>
  rcases Nat.le_one_iff_eq_zero_or_eq_one.mp h7 with rfl | rfl <;>
  decide

theorem pack_lt (b0 b1 b2 b3 : Nat)
    (h0 : b0 ≤ 1) (h1 : b1 ≤ 1) (h2 : b2 ≤ 1) (h3 : b3 ≤ 1) :
    packBytes [b0, b1, b2, b3] < 2 ^ 32 := by
  show b0 + 2 ^ 8 * b1 + 2 ^ 16 * b2 + 2 ^ 24 * b3 < 2 ^ 32
  omega

theorem zip_land_ones (a0 a1 a2 a3 c0 c1 c2 c3 : Nat)
    (h0 : a0 ≤ 1) (h1 : a1 ≤ 1) (h2 : a2 ≤ 1) (h3 : a3 ≤ 1)
    (h4 : c0 ≤ 1) (h5 : c1 ≤ 1) (h6 : c2 ≤ 1) (h7 : c3 ≤ 1) :
    ([a0 &&& c0, a1 &&& c1, a2 &&& c2, a3 &&& c3] = [1, 1, 1, 1])
      ↔ ([a0, a1, a2, a3] = [1, 1, 1, 1] ∧ [c0, c1, c2, c3] = [1, 1, 1, 1]) := by
  rcases Nat.le_one_iff_eq_zero_or_eq_one.mp h0 with rfl | rfl <;>
  rcases Nat.le_one_iff_eq_zero_or_eq_one.mp h1 with rfl | rfl <;>
  rcases Nat.le_one_iff_eq_zero_or_eq_one.mp h2 with rfl | rfl <;>
  rcases Nat.le_one_iff_eq_zero_or_eq_one.mp h3 with rfl | rfl <;>
  rcases Nat.le_one_iff_eq_zero_or_eq_one.mp h4 with rfl | rfl <;>
  rcases Nat.le_one_iff_eq_zero_or_eq_one.mp h5 with rfl | rfl <;>
  rcases Nat.le_one_iff_eq_zero_or_eq_one.mp h6 with rfl | rfl <;>
  rcases Nat.le_one_iff_eq_zero_or_eq_one.mp h7 with rfl | rfl <;>
  decide

theorem zip_lor_zeros (a0 a1 a2 a3 c0 c1 c2 c3 : Nat)
    (h0 : a0 ≤ 1) (h1 : a1 ≤ 1) (h2 : a2 ≤ 1) (h3 : a3 ≤ 1)
    (h4 : c0 ≤ 1) (h5 : c1 ≤ 1) (h6 : c2 ≤ 1) (h7 : c3 ≤ 1) :
    ([a0 ||| c0, a1 ||| c1, a2 ||| c2, a3 ||| c3] = [0, 0, 0, 0])
      ↔ ([a0, a1, a2, a3] = [0, 0, 0, 0] ∧ [c0, c1, c2, c3] = [0, 0, 0, 0]) := by
  rcases Nat.le_one_iff_eq_zero_or_eq_one.mp h0 with rfl | rfl <;>
  rcases Nat.le_one_iff_eq_zero_or_eq_one.mp h1 with rfl | rfl <;>
  rcases Nat.le_one_iff_eq_zero_or_eq_one.mp h2 with rfl | rfl <;>
  rcases Nat.le_one_iff_eq_zero_or_eq_one.mp h3 with rfl | rfl <;>
  rcases Nat.le_one_iff_eq_zero_or_eq_one.mp h4 with rfl | rfl <;>
  rcases Nat.le_one_iff_eq_zero_or_eq_one.mp h5 with rfl | rfl <;>
  rcases Nat.le_one_iff_eq_zero_or_eq_one.mp h6 with rfl | rfl <;>
  rcases Nat.le_one_iff_eq_zero_or_eq_one.mp h7 with rfl | rfl <;>
  decide

theorem bytes_and_nonzero_pack (r0 r1 r2 r3 : Nat)
    (h0 : r0 ≤ 1) (h1 : r1 ≤ 1) (h2 : r2 ≤ 1) (h3 : r3 ≤ 1) :
    (bytes_and_nonzero (packBytes [r0, r1, r2, r3]) = true)
      ↔ [r0, r1, r2, r3] = [1, 1, 1, 1] := by
  rcases Nat.le_one_iff_eq_zero_or_eq_one.mp h0 with rfl | rfl <;>
  rcases Nat.le_one_iff_eq_zero_or_eq_one.mp h1 with rfl | rfl <;>
  rcases Nat.le_one_iff_eq_zero_or_eq_one.mp h2 with rfl | rfl <;>
  rcases Nat.le_one_iff_eq_zero_or_eq_one.mp h3 with rfl | rfl <;>
  decide

theorem bytes_or_nonzero_pack (r0 r1 r2 r3 : Nat)
    (h0 : r0 ≤ 1) (h1 : r1 ≤ 1) (h2 : r2 ≤ 1) (h3 : r3 ≤ 1) :
    (bytes_or_nonzero (packBytes [r0, r1, r2, r3]) = true)
      ↔ ¬([r0, r1, r2, r3] = [0, 0, 0, 0]) := by
  rcases Nat.le_one_iff_eq_zero_or_eq_one.mp h0 with rfl | rfl <;>
  rcases Nat.le_one_iff_eq_zero_or_eq_one.mp h1 with rfl | rfl <;>
  rcases Nat.le_one_iff_eq_zero_or_eq_one.mp h2 with rfl | rfl <;>
  rcases Nat.le_one_iff_eq_zero_or_eq_one.mp h3 with rfl | rfl <;>
  decide


theorem foldl_land_packs :
    ∀ (cs : List (List Nat)) (acc : List Nat),
      (∀ c ∈ cs, c.length = 4 ∧ ∀ v ∈ c, v ≤ 1) →
      acc.length = 4 → (∀ v ∈ acc, v ≤ 1) →
      (cs.map packBytes).foldl Nat.land (packBytes acc)
        = packBytes (cs.foldl (fun a c => List.zipWith Nat.land a c) acc) := by
  intro cs
  induction cs with
  | nil => intro acc _ _ _; rfl
  | cons c rest ih =>
    intro acc h hlen hle
    obtain ⟨hclen, hcle⟩ := h c (by simp)
    obtain ⟨a0, a1, a2, a3, rfl⟩ := list_len4 acc hlen
    obtain ⟨c0, c1, c2, c3, rfl⟩ := list_len4 c hclen
    have hstep : packBytes [a0, a1, a2, a3] &&& packBytes [c0, c1, c2, c3]
        = packBytes [a0 &&& c0, a1 &&& c1, a2 &&& c2, a3 &&& c3] :=
      pack_land a0 a1 a2 a3 c0 c1 c2 c3 (hle a0 (by simp)) (hle a1 (by simp))
        (hle a2 (by simp)) (hle a3 (by simp)) (hcle c0 (by simp)) (hcle c1 (by simp))
        (hcle c2 (by simp)) (hcle c3 (by simp))
    show (rest.map packBytes).foldl Nat.land
        (packBytes [a0, a1, a2, a3] &&& packBytes [c0, c1, c2, c3]) = _
    rw [hstep]
    have hb4 : ∀ v ∈ [a0 &&& c0, a1 &&& c1, a2 &&& c2, a3 &&& c3], v ≤ 1 := by
      intro v hv
      simp only [List.mem_cons, List.not_mem_nil, or_false] at hv
      rcases hv with rfl | rfl | rfl | rfl
      · exact le_trans Nat.and_le_left (hle a0 (by simp))
      · exact le_trans Nat.and_le_left (hle a1 (by simp))
      · exact le_trans Nat.and_le_left (hle a2 (by simp))
      · exact le_trans Nat.and_le_left (hle a3 (by simp))
    have hrest : ∀ blk ∈ rest, blk.length = 4 ∧ ∀ v ∈ blk, v ≤ 1 :=
      fun blk hblk => h blk (by simp [hblk])
    rw [ih [a0 &&& c0, a1 &&& c1, a2 &&& c2, a3 &&& c3] hrest rfl hb4, List.foldl_cons]
    rfl

theorem lor_le_one {a b : Nat} (ha : a ≤ 1) (hbnd : b ≤ 1) : a ||| b ≤ 1 := by
  have h2 : (2 : Nat) ^ 1 = 2 := rfl
  have h3 := Nat.or_lt_two_pow (x := a) (y := b) (n := 1) (by omega) (by omega)
  omega

theorem foldl_lor_packs :
    ∀ (cs : List (List Nat)) (acc : List Nat),
      (∀ c ∈ cs, c.length = 4 ∧ ∀ v ∈ c, v ≤ 1) →
      acc.length = 4 → (∀ v ∈ acc, v ≤ 1) →
      (cs.map packBytes).foldl Nat.lor (packBytes acc)
        = packBytes (cs.foldl (fun a c => List.zipWith Nat.lor a c) acc) := by
  intro cs
  induction cs with
  | nil => intro acc _ _ _; rfl
  | cons c rest ih =>
    intro acc h hlen hle
    obtain ⟨hclen, hcle⟩ := h c (by simp)
    obtain ⟨a0, a1, a2, a3, rfl⟩ := list_len4 acc hlen
    obtain ⟨c0, c1, c2, c3, rfl⟩ := list_len4 c hclen
    have hstep : packBytes [a0, a1, a2, a3] ||| packBytes [c0, c1, c2, c3]
        = packBytes [a0 ||| c0, a1 ||| c1, a2 ||| c2, a3 ||| c3] :=
      pack_lor a0 a1 a2 a3 c0 c1 c2 c3 (hle a0 (by simp)) (hle a1 (by simp))
        (hle a2 (by simp)) (hle a3 (by simp)) (hcle c0 (by simp)) (hcle c1 (by simp))
        (hcle c2 (by simp)) (hcle c3 (by simp))
    show (rest.map packBytes).foldl Nat.lor
        (packBytes [a0, a1, a2, a3] ||| packBytes [c0, c1, c2, c3]) = _
    rw [hstep]
    have hb4 : ∀ v ∈ [a0 ||| c0, a1 ||| c1, a2 ||| c2, a3 ||| c3], v ≤ 1 := by
      intro v hv
      simp only [List.mem_cons, List.not_mem_nil, or_false] at hv
      rcases hv with rfl | rfl | rfl | rfl
      · exact lor_le_one (hle a0 (by simp)) (hcle c0 (by simp))
      · exact lor_le_one (hle a1 (by simp)) (hcle c1 (by simp))
      · exact lor_le_one (hle a2 (by simp)) (hcle c2 (by simp))
      · exact lor_le_one (hle a3 (by simp)) (hcle c3 (by simp))
    have hrest : ∀ blk ∈ rest, blk.length = 4 ∧ ∀ v ∈ blk, v ≤ 1 :=
      fun blk hblk => h blk (by simp [hblk])
    rw [ih [a0 ||| c0, a1 ||| c1, a2 ||| c2, a3 ||| c3] hrest rfl hb4, List.foldl_cons]
    rfl

theorem foldl_zip_land_closure :
    ∀ (cs : List (List Nat)) (acc : List Nat),
      (∀ c ∈ cs, c.length = 4 ∧ ∀ v ∈ c, v ≤ 1) →
      acc.length = 4 → (∀ v ∈ acc, v ≤ 1) →
      (cs.foldl (fun a c => List.zipWith Nat.land a c) acc).length = 4
      ∧ ∀ v ∈ cs.foldl (fun a c => List.zipWith Nat.land a c) acc, v ≤ 1 := by
  intro cs
  induction cs with
  | nil => intro acc _ hlen hle; exact ⟨hlen, hle⟩
  | cons c rest ih =>
    intro acc h hlen hle
    obtain ⟨hclen, hcle⟩ := h c (by simp)
    obtain ⟨a0, a1, a2, a3, rfl⟩ := list_len4 acc hlen
    obtain ⟨c0, c1, c2, c3, rfl⟩ := list_len4 c hclen
    have hb4 : ∀ v ∈ [a0 &&& c0, a1 &&& c1, a2 &&& c2, a3 &&& c3], v ≤ 1 := by
      intro v hv
      simp only [List.mem_cons, List.not_mem_nil, or_false] at hv
      rcases hv with rfl | rfl | rfl | rfl
      · exact le_trans Nat.and_le_left (hle a0 (by simp))
      · exact le_trans Nat.and_le_left (hle a1 (by simp))
      · exact le_trans Nat.and_le_left (hle a2 (by simp))
      · exact le_trans Nat.and_le_left (hle a3 (by simp))
    exact ih [a0 &&& c0, a1 &&& c1, a2 &&& c2, a3 &&& c3]
      (fun blk hblk => h blk (by simp [hblk])) rfl hb4

theorem foldl_zip_lor_closure :
    ∀ (cs : List (List Nat)) (acc : List Nat),
      (∀ c ∈ cs, c.length = 4 ∧ ∀ v ∈ c, v ≤ 1) →
      acc.length = 4 → (∀ v ∈ acc, v ≤ 1) →
      (cs.foldl (fun a c => List.zipWith Nat.lor a c) acc).length = 4
      ∧ ∀ v ∈ cs.foldl (fun a c => List.zipWith Nat.lor a c) acc, v ≤ 1 := by
  intro cs
  induction cs with
  | nil => intro acc _ hlen hle; exact ⟨hlen, hle⟩
  | cons c rest ih =>
    intro acc h hlen hle
    obtain ⟨hclen, hcle⟩ := h c (by simp)
    obtain ⟨a0, a1, a2, a3, rfl⟩ := list_len4 acc hlen
    obtain ⟨c0, c1, c2, c3, rfl⟩ := list_len4 c hclen
    have hb4 : ∀ v ∈ [a0 ||| c0, a1 ||| c1, a2 ||| c2, a3 ||| c3], v ≤ 1 := by
      intro v hv
      simp only [List.mem_cons, List.not_mem_nil, or_false] at hv
      rcases hv with rfl | rfl | rfl | rfl
      · exact lor_le_one (hle a0 (by simp)) (hcle c0 (by simp))
      · exact lor_le_one (hle a1 (by simp)) (hcle c1 (by simp))
      · exact lor_le_one (hle a2 (by simp)) (hcle c2 (by simp))
      · exact lor_le_one (hle a3 (by simp)) (hcle c3 (by simp))
    exact ih [a0 ||| c0, a1 ||| c1, a2 ||| c2, a3 ||| c3]
      (fun blk hblk => h blk (by simp [hblk])) rfl hb4

theorem foldl_zip_land_ones :
    ∀ (cs : List (List Nat)) (acc : List Nat),
      (∀ c ∈ cs, c.length = 4 ∧ ∀ v ∈ c, v ≤ 1) →
      acc.length = 4 → (∀ v ∈ acc, v ≤ 1) →
      (cs.foldl (fun a c => List.zipWith Nat.land a c) acc = [1, 1, 1, 1]
        ↔ acc = [1, 1, 1, 1] ∧ ∀ c ∈ cs, c = [1, 1, 1, 1]) := by
  intro cs
  induction cs with
  | nil =>
    intro acc _ _ _
    simp
  | cons c rest ih =>
    intro acc h hlen hle
    obtain ⟨hclen, hcle⟩ := h c (by simp)
    obtain ⟨a0, a1, a2, a3, rfl⟩ := list_len4 acc hlen
    obtain ⟨c0, c1, c2, c3, rfl⟩ := list_len4 c hclen
    have hb4 : ∀ v ∈ [a0 &&& c0, a1 &&& c1, a2 &&& c2, a3 &&& c3], v ≤ 1 := by
      intro v hv
      simp only [List.mem_cons, List.not_mem_nil, or_false] at hv
      rcases hv with rfl | rfl | rfl | rfl
      · exact le_trans Nat.and_le_left (hle a0 (by simp))
      · exact le_trans Nat.and_le_left (hle a1 (by simp))
      · exact le_trans Nat.and_le_left (hle a2 (by simp))
      · exact le_trans Nat.and_le_left (hle a3 (by simp))
    show (rest.foldl (fun a c => List.zipWith Nat.land a c)
        [a0 &&& c0, a1 &&& c1, a2 &&& c2, a3 &&& c3] = [1, 1, 1, 1]) ↔ _
    rw [ih [a0 &&& c0, a1 &&& c1, a2 &&& c2, a3 &&& c3]
      (fun blk hblk => h blk (by simp [hblk])) rfl hb4]
    rw [zip_land_ones a0 a1 a2 a3 c0 c1 c2 c3 (hle a0 (by simp)) (hle a1 (by simp))
      (hle a2 (by simp)) (hle a3 (by simp)) (hcle c0 (by simp)) (hcle c1 (by simp))
      (hcle c2 (by simp)) (hcle c3 (by simp))]
    constructor
    · rintro ⟨⟨h1, h2⟩, h3⟩
      refine ⟨h1, ?_⟩
      intro c2 hc2
      rcases List.mem_cons.mp hc2 with rfl | hc2r
      · exact h2
      · exact h3 c2 hc2r
    · rintro ⟨h1, h2⟩
      exact ⟨⟨h1, h2 _ (by simp)⟩, fun c2 hc2 => h2 c2 (by simp [hc2])⟩

theorem foldl_zip_lor_zeros :
    ∀ (cs : List (List Nat)) (acc : List Nat),
      (∀ c ∈ cs, c.length = 4 ∧ ∀ v ∈ c, v ≤ 1) →
      acc.length = 4 → (∀ v ∈ acc, v ≤ 1) →
      (cs.foldl (fun a c => List.zipWith Nat.lor a c) acc = [0, 0, 0, 0]
        ↔ acc = [0, 0, 0, 0] ∧ ∀ c ∈ cs, c = [0, 0, 0, 0]) := by
  intro cs
  induction cs with
  | nil =>
    intro acc _ _ _
    simp
  | cons c rest ih =>
    intro acc h hlen hle
    obtain ⟨hclen, hcle⟩ := h c (by simp)
    obtain ⟨a0, a1, a2, a3, rfl⟩ := list_len4 acc hlen
    obtain ⟨c0, c1, c2, c3, rfl⟩ := list_len4 c hclen
    have hb4 : ∀ v ∈ [a0 ||| c0, a1 ||| c1, a2 ||| c2, a3 ||| c3], v ≤ 1 := by
      intro v hv
      simp only [List.mem_cons, List.not_mem_nil, or_false] at hv
      rcases hv with rfl | rfl | rfl | rfl
      · exact lor_le_one (hle a0 (by simp)) (hcle c0 (by simp))
      · exact lor_le_one (hle a1 (by simp)) (hcle c1 (by simp))
      · exact lor_le_one (hle a2 (by simp)) (hcle c2 (by simp))
      · exact lor_le_one (hle a3 (by simp)) (hcle c3 (by simp))
    show (rest.foldl (fun a c => List.zipWith Nat.lor a c)
        [a0 ||| c0, a1 ||| c1, a2 ||| c2, a3 ||| c3] = [0, 0, 0, 0]) ↔ _
    rw [ih [a0 ||| c0, a1 ||| c1, a2 ||| c2, a3 ||| c3]
      (fun blk hblk => h blk (by simp [hblk])) rfl hb4]
    rw [zip_lor_zeros a0 a1 a2 a3 c0 c1 c2 c3 (hle a0 (by simp)) (hle a1 (by simp))
      (hle a2 (by simp)) (hle a3 (by simp)) (hcle c0 (by simp)) (hcle c1 (by simp))
      (hcle c2 (by simp)) (hcle c3 (by simp))]
    constructor
    · rintro ⟨⟨h1, h2⟩, h3⟩
      refine ⟨h1, ?_⟩
      intro c2 hc2
      rcases List.mem_cons.mp hc2 with rfl | hc2r
      · exact h2
      · exact h3 c2 hc2r
    · rintro ⟨h1, h2⟩
      exact ⟨⟨h1, h2 _ (by simp)⟩, fun c2 hc2 => h2 c2 (by simp [hc2])⟩


theorem jit_all_true_iff (block_size : Nat) (values : List Nat)
    (hb : ∀ v ∈ values, v ≤ 1) :
    (jit_all block_size values = true ↔ ∀ v ∈ values, v = 1) := by
  by_cases hn : values = []
  · subst hn
    have htrue : jit_all block_size [] = true := by
      unfold jit_all jit_all_word toWords jitc_reduce_blocked
      rw [show ([] : List Nat) ++ List.replicate
          ((([] : List Nat).length + 3) / 4 * 4 - ([] : List Nat).length) 1 = []
        from by simp]
      rw [chunks_nil]
      simp only [List.map_nil, List.length_nil]
      show bytes_and_nonzero (List.foldl Nat.land (2 ^ 32 - 1) []) = true
      decide
    rw [htrue]
    simp
  · set padded := values ++ List.replicate
      ((values.length + 3) / 4 * 4 - values.length) 1 with hpad
    have hlenpad : padded.length = (values.length + 3) / 4 * 4 := by
      rw [hpad]
      simp only [List.length_append, List.length_replicate]
      omega
    have hdvd : (4 : Nat) ∣ padded.length := by
      rw [hlenpad]
      exact ⟨(values.length + 3) / 4, by omega⟩
    have hple : ∀ v ∈ padded, v ≤ 1 := by
      intro v hv
      rw [hpad] at hv
      rcases List.mem_append.mp hv with h | h
      · exact hb v h
      · have := (List.mem_replicate.mp h).2
        omega
    have hchunk : ∀ c ∈ chunks 4 padded, c.length = 4 ∧ ∀ v ∈ c, v ≤ 1 :=
      fun c hc => ⟨chunks_length_of_dvd (by omega) padded hdvd c hc,
        fun v hv => hple v (chunks_mem hc v hv)⟩
    have hpadne : padded ≠ [] := by
      rw [hpad]
      intro hh
      exact hn (List.append_eq_nil.mp hh).1
    have hcne : chunks 4 padded ≠ [] := by
      intro hh
      apply hpadne
      rw [← chunks_flatten 4 padded, hh]
      rfl
    obtain ⟨c, rest, hchunks⟩ : ∃ c rest, chunks 4 padded = c :: rest := by
      rcases hc : chunks 4 padded with _ | ⟨c, rest⟩
      · exact absurd hc hcne
      · exact ⟨c, rest, rfl⟩
    have hwords_lt : ∀ w ∈ toWords padded, w < 2 ^ 32 := by
      intro w hw
      obtain ⟨blk, hblk, rfl⟩ := List.mem_map.mp hw
      obtain ⟨hl4, hle1⟩ := hchunk blk hblk
      obtain ⟨b0, b1, b2, b3, rfl⟩ := list_len4 blk hl4
      exact pack_lt b0 b1 b2 b3 (hle1 b0 (by simp)) (hle1 b1 (by simp))
        (hle1 b2 (by simp)) (hle1 b3 (by simp))
    have hred : jitc_reduce_blocked Nat.land (2 ^ 32 - 1) block_size (toWords padded)
        = (toWords padded).foldl Nat.land (2 ^ 32 - 1) :=
      jitc_reduce_blocked_eq Nat.land (2 ^ 32 - 1) (fun x => x < 2 ^ 32)
        (fun a b c => Nat.land_assoc a b c) (by omega)
        (fun a b _ hb2 => Nat.and_lt_two_pow a hb2)
        (fun x hx => mask32_land hx)
        (fun x hx => by
          show x &&& (2 ^ 32 - 1) = x
          rw [Nat.land_comm]
          exact mask32_land hx)
        block_size (toWords padded) hwords_lt
    have hc4 := hchunk c (by rw [hchunks]; exact List.mem_cons_self c rest)
    obtain ⟨hcl4, hcle1⟩ := hc4
    have hrest4 : ∀ blk ∈ rest, blk.length = 4 ∧ ∀ v ∈ blk, v ≤ 1 :=
      fun blk hblk => hchunk blk (by rw [hchunks]; exact List.mem_cons_of_mem c hblk)
    have hfold : (toWords padded).foldl Nat.land (2 ^ 32 - 1)
        = (rest.map packBytes).foldl Nat.land (packBytes c) := by
      show ((chunks 4 padded).map packBytes).foldl Nat.land (2 ^ 32 - 1) = _
      rw [hchunks, List.map_cons, List.foldl_cons]
      congr 1
      obtain ⟨b0, b1, b2, b3, hc0⟩ := list_len4 c hcl4
      have hm0 : b0 ∈ c := by rw [hc0]; simp
      have hm1 : b1 ∈ c := by rw [hc0]; simp
      have hm2 : b2 ∈ c := by rw [hc0]; simp
      have hm3 : b3 ∈ c := by rw [hc0]; simp
      rw [hc0]
      exact mask32_land (pack_lt b0 b1 b2 b3 (hcle1 b0 hm0) (hcle1 b1 hm1)
        (hcle1 b2 hm2) (hcle1 b3 hm3))
    have hpacks := foldl_land_packs rest c hrest4 hcl4 hcle1
    have hclo := foldl_zip_land_closure rest c hrest4 hcl4 hcle1
    obtain ⟨r0, r1, r2, r3, hr⟩ := list_len4 _ hclo.1
    have hrb : ∀ v ∈ [r0, r1, r2, r3], v ≤ 1 := hr ▸ hclo.2
    show bytes_and_nonzero (jitc_reduce_blocked Nat.land (2 ^ 32 - 1) block_size
      (toWords padded)) = true ↔ ∀ v ∈ values, v = 1
    rw [hred, hfold, hpacks, hr]
    rw [bytes_and_nonzero_pack r0 r1 r2 r3 (hrb r0 (by simp)) (hrb r1 (by simp))
      (hrb r2 (by simp)) (hrb r3 (by simp))]
    rw [← hr, foldl_zip_land_ones rest c hrest4 hcl4 hcle1]
    constructor
    · rintro ⟨hcones, hrones⟩ v hv
      have hvp : v ∈ padded := by
        rw [hpad]
        exact List.mem_append.mpr (Or.inl hv)
      rw [← chunks_flatten 4 padded] at hvp
      obtain ⟨blk, hblk, hvblk⟩ := List.mem_flatten.mp hvp
      rw [hchunks] at hblk
      rcases List.mem_cons.mp hblk with h | hblkr
      · rw [h, hcones] at hvblk
        simpa using hvblk
      · rw [hrones blk hblkr] at hvblk
        simpa using hvblk
    · intro hall
      have hpone : ∀ v ∈ padded, v = 1 := by
        intro v hv
        rw [hpad] at hv
        rcases List.mem_append.mp hv with h | h
        · exact hall v h
        · exact (List.mem_replicate.mp h).2
      have hcones : ∀ blk ∈ chunks 4 padded, blk = [1, 1, 1, 1] := by
        intro blk hblk
        obtain ⟨hl4, _⟩ := hchunk blk hblk
        obtain ⟨x0, x1, x2, x3, rfl⟩ := list_len4 blk hl4
        rw [hpone x0 (chunks_mem hblk x0 (by simp)),
            hpone x1 (chunks_mem hblk x1 (by simp)),
            hpone x2 (chunks_mem hblk x2 (by simp)),
            hpone x3 (chunks_mem hblk x3 (by simp))]
      exact ⟨hcones c (by rw [hchunks]; exact List.mem_cons_self c rest),
        fun blk hblk => hcones blk (by rw [hchunks]; exact List.mem_cons_of_mem c hblk)⟩

theorem jit_any_true_iff (block_size : Nat) (values : List Nat)
    (hb : ∀ v ∈ values, v ≤ 1) :
    (jit_any block_size values = true ↔ ∃ v ∈ values, v ≠ 0) := by
  by_cases hn : values = []
  · subst hn
    have hfalse : jit_any block_size [] = false := by
      unfold jit_any jit_any_word toWords jitc_reduce_blocked
      rw [show ([] : List Nat) ++ List.replicate
          ((([] : List Nat).length + 3) / 4 * 4 - ([] : List Nat).length) 0 = []
        from by simp]
      rw [chunks_nil]
      simp only [List.map_nil, List.length_nil]
      show bytes_or_nonzero (List.foldl Nat.lor 0 []) = false
      decide
    rw [hfalse]
    simp
  · set padded := values ++ List.replicate
      ((values.length + 3) / 4 * 4 - values.length) 0 with hpad
    have hlenpad : padded.length = (values.length + 3) / 4 * 4 := by
      rw [hpad]
      simp only [List.length_append, List.length_replicate]
      omega
    have hdvd : (4 : Nat) ∣ padded.length := by
      rw [hlenpad]
      exact ⟨(values.length + 3) / 4, by omega⟩
    have hple : ∀ v ∈ padded, v ≤ 1 := by
      intro v hv
      rw [hpad] at hv
      rcases List.mem_append.mp hv with h | h
      · exact hb v h
      · have := (List.mem_replicate.mp h).2
        omega
    have hchunk : ∀ c ∈ chunks 4 padded, c.length = 4 ∧ ∀ v ∈ c, v ≤ 1 :=
      fun c hc => ⟨chunks_length_of_dvd (by omega) padded hdvd c hc,
        fun v hv => hple v (chunks_mem hc v hv)⟩
    have hpadne : padded ≠ [] := by
      rw [hpad]
      intro hh
      exact hn (List.append_eq_nil.mp hh).1
    have hcne : chunks 4 padded ≠ [] := by
      intro hh
      apply hpadne
      rw [← chunks_flatten 4 padded, hh]
      rfl
    obtain ⟨c, rest, hchunks⟩ : ∃ c rest, chunks 4 padded = c :: rest := by
      rcases hc : chunks 4 padded with _ | ⟨c, rest⟩
      · exact absurd hc hcne
      · exact ⟨c, rest, rfl⟩
    have hwords_lt : ∀ w ∈ toWords padded, w < 2 ^ 32 := by
      intro w hw
      obtain ⟨blk, hblk, rfl⟩ := List.mem_map.mp hw
      obtain ⟨hl4, hle1⟩ := hchunk blk hblk
      obtain ⟨b0, b1, b2, b3, rfl⟩ := list_len4 blk hl4
      exact pack_lt b0 b1 b2 b3 (hle1 b0 (by simp)) (hle1 b1 (by simp))
        (hle1 b2 (by simp)) (hle1 b3 (by simp))
    have hred : jitc_reduce_blocked Nat.lor 0 block_size (toWords padded)
        = (toWords padded).foldl Nat.lor 0 :=
      jitc_reduce_blocked_eq Nat.lor 0 (fun x => x < 2 ^ 32)
        (fun a b c => Nat.lor_assoc a b c) (by omega)
        (fun a b ha hb2 => Nat.or_lt_two_pow ha hb2)
        (fun x _ => by show 0 ||| x = x; simp)
        (fun x _ => by show x ||| 0 = x; simp)
        block_size (toWords padded) hwords_lt
    have hc4 := hchunk c (by rw [hchunks]; exact List.mem_cons_self c rest)
    obtain ⟨hcl4, hcle1⟩ := hc4
    have hrest4 : ∀ blk ∈ rest, blk.length = 4 ∧ ∀ v ∈ blk, v ≤ 1 :=
      fun blk hblk => hchunk blk (by rw [hchunks]; exact List.mem_cons_of_mem c hblk)
    have hfold : (toWords padded).foldl Nat.lor 0
        = (rest.map packBytes).foldl Nat.lor (packBytes c) := by
      show ((chunks 4 padded).map packBytes).foldl Nat.lor 0 = _
      rw [hchunks, List.map_cons, List.foldl_cons]
      congr 1
      show 0 ||| packBytes c = packBytes c
      simp
    have hpacks := foldl_lor_packs rest c hrest4 hcl4 hcle1
    have hclo := foldl_zip_lor_closure rest c hrest4 hcl4 hcle1
    obtain ⟨r0, r1, r2, r3, hr⟩ := list_len4 _ hclo.1
    have hrb : ∀ v ∈ [r0, r1, r2, r3], v ≤ 1 := hr ▸ hclo.2
    have hkey : (c = [0, 0, 0, 0] ∧ ∀ blk ∈ rest, blk = [0, 0, 0, 0])
        ↔ ∀ v ∈ values, v = 0 := by
      constructor
      · rintro ⟨hczeros, hrzeros⟩ v hv
        have hvp : v ∈ padded := by
          rw [hpad]
          exact List.mem_append.mpr (Or.inl hv)
        rw [← chunks_flatten 4 padded] at hvp
        obtain ⟨blk, hblk, hvblk⟩ := List.mem_flatten.mp hvp
        rw [hchunks] at hblk
        rcases List.mem_cons.mp hblk with h | hblkr
        · rw [h, hczeros] at hvblk
          simpa using hvblk
        · rw [hrzeros blk hblkr] at hvblk
          simpa using hvblk
      · intro hall
        have hpzero : ∀ v ∈ padded, v = 0 := by
          intro v hv
          rw [hpad] at hv
          rcases List.mem_append.mp hv with h | h
          · exact hall v h
          · exact (List.mem_replicate.mp h).2
        have hczeros : ∀ blk ∈ chunks 4 padded, blk = [0, 0, 0, 0] := by
          intro blk hblk
          obtain ⟨hl4, _⟩ := hchunk blk hblk
          obtain ⟨x0, x1, x2, x3, rfl⟩ := list_len4 blk hl4
          rw [hpzero x0 (chunks_mem hblk x0 (by simp)),
              hpzero x1 (chunks_mem hblk x1 (by simp)),
              hpzero x2 (chunks_mem hblk x2 (by simp)),
              hpzero x3 (chunks_mem hblk x3 (by simp))]
        exact ⟨hczeros c (by rw [hchunks]; exact List.mem_cons_self c rest),
          fun blk hblk => hczeros blk
            (by rw [hchunks]; exact List.mem_cons_of_mem c hblk)⟩
    show bytes_or_nonzero (jitc_reduce_blocked Nat.lor 0 block_size
      (toWords padded)) = true ↔ ∃ v ∈ values, v ≠ 0
    rw [hred, hfold, hpacks, hr]
    rw [bytes_or_nonzero_pack r0 r1 r2 r3 (hrb r0 (by simp)) (hrb r1 (by simp))
      (hrb r2 (by simp)) (hrb r3 (by simp))]
    rw [← hr, foldl_zip_lor_zeros rest c hrest4 hcl4 hcle1, hkey]
    constructor
    · intro hna
      by_contra hcon
      push_neg at hcon
      exact hna hcon
    · rintro ⟨v, hv, hvne⟩ hall
      exact hvne (hall v hv)

-- ====================================================================
-- Claim theorems
-- ====================================================================

/-- C2: for an input a[0..n) of a supported element type, the exclusive scan
s of the CPU blockwise two-phase path satisfies s[0] = 0 and
s[i+1] - s[i] = a[i], the inclusive scan t satisfies
t[i] - (i > 0 ? t[i-1] : 0) = a[i] — in the wrap-around group carrying the
element type (ZMod (2 ^ 32) / ZMod (2 ^ 64) for the integer instantiations) —
and both phase-2 loops may run with the output region aliasing the input;
jitc_prefix_sum returns exactly this CPU-path result for any supported
element type. -/
theorem C2_prefix_sum_roundtrip {R : Type} [AddCommGroup R] (block_size : Nat)
    (a : List R) :
    (0 < a.length → (prefix_sum_cpu block_size a true).getD 0 0 = 0)
    ∧ (∀ i, i + 1 < a.length →
        (prefix_sum_cpu block_size a true).getD (i + 1) 0
          - (prefix_sum_cpu block_size a true).getD i 0 = a.getD i 0)
    ∧ (∀ i, i < a.length →
        (prefix_sum_cpu block_size a false).getD i 0
          - (if 0 < i then (prefix_sum_cpu block_size a false).getD (i - 1) 0 else 0)
          = a.getD i 0)
    ∧ (∀ accum : R,
        sum_reduce_2_exc_mem a.length a 0 accum = sum_reduce_2_exc accum a
        ∧ sum_reduce_2_inc_mem a.length a 0 accum = sum_reduce_2_inc accum a)
    ∧ (∀ vt exclusive, sum_reduce_supported (prefix_sum_convert vt) = true →
        jitc_prefix_sum vt exclusive block_size a
          = Except.ok (prefix_sum_cpu block_size a exclusive)) := by
  have hexc : prefix_sum_cpu block_size a true = sum_reduce_2_exc 0 a := by
    rw [prefix_sum_cpu_eq]; simp [sum_reduce_2]
  have hinc : prefix_sum_cpu block_size a false = sum_reduce_2_inc 0 a := by
    rw [prefix_sum_cpu_eq]; simp [sum_reduce_2]
  refine ⟨?_, ?_, ?_, ?_, ?_⟩
  · intro h
    rw [hexc, sum_reduce_2_exc_getD 0 a 0 h]
    simp
  · intro i h
    rw [hexc, sum_reduce_2_exc_getD 0 a (i + 1) h,
      sum_reduce_2_exc_getD 0 a i (by omega)]
    simp only [zero_add]
    rw [List.sum_take_succ a i (by omega), List.getD_eq_getElem a 0 (by omega)]
    exact add_sub_cancel_left _ _
  · intro i h
    rw [hinc]
    by_cases hi : 0 < i
    · obtain ⟨j, rfl⟩ : ∃ j, i = j + 1 := ⟨i - 1, by omega⟩
      rw [if_pos hi, sum_reduce_2_inc_getD 0 a (j + 1) h,
        sum_reduce_2_inc_getD 0 a (j + 1 - 1) (by omega)]
      simp only [zero_add, Nat.add_sub_cancel]
      rw [List.sum_take_succ a (j + 1) (by omega),
        List.getD_eq_getElem a 0 (by omega)]
      exact add_sub_cancel_left _ _
    · have h0 : i = 0 := by omega
      subst h0
      rw [if_neg hi, sum_reduce_2_inc_getD 0 a 0 h, sub_zero]
      rw [List.sum_take_succ a 0 (by omega), List.getD_eq_getElem a 0 (by omega)]
      simp
  · intro accum
    constructor
    · have h := sum_reduce_2_exc_mem_eq a [] accum
      simpa using h
    · have h := sum_reduce_2_inc_mem_eq a [] accum
      simpa using h
  · intro vt exclusive hvt
    by_cases hlen : a.length = 0
    · have ha : a = [] := List.eq_nil_of_length_eq_zero hlen
      subst ha
      cases exclusive <;>
        simp [jitc_prefix_sum, prefix_sum_cpu_eq, sum_reduce_2,
          sum_reduce_2_exc, sum_reduce_2_inc]
    · simp [jitc_prefix_sum, hlen, hvt]

/-- Witness for C2 at a concrete input: exclusive scan of [1, 2, 3, 4] over
uint32 with block size 2 has first entry 0 and consecutive difference a[1]
at index 1, and the inclusive scan reproduces a[2] at index 2. -/
theorem C2_witness :
    (prefix_sum_cpu 2 ([1, 2, 3, 4] : List (ZMod (2 ^ 32))) true).getD 0 0 = 0
    ∧ ((prefix_sum_cpu 2 ([1, 2, 3, 4] : List (ZMod (2 ^ 32))) true).getD 2 0
        - (prefix_sum_cpu 2 ([1, 2, 3, 4] : List (ZMod (2 ^ 32))) true).getD 1 0
        = ([1, 2, 3, 4] : List (ZMod (2 ^ 32))).getD 1 0)
    ∧ ((prefix_sum_cpu 2 ([1, 2, 3, 4] : List (ZMod (2 ^ 32))) false).getD 2 0
        - (if 0 < 2 then
            (prefix_sum_cpu 2 ([1, 2, 3, 4] : List (ZMod (2 ^ 32))) false).getD 1 0
          else 0)
        = ([1, 2, 3, 4] : List (ZMod (2 ^ 32))).getD 2 0) :=
  ⟨(C2_prefix_sum_roundtrip 2 [1, 2, 3, 4]).1 (by decide),
   (C2_prefix_sum_roundtrip 2 [1, 2, 3, 4]).2.1 1 (by decide),
   (C2_prefix_sum_roundtrip 2 [1, 2, 3, 4]).2.2.1 2 (by decide)⟩

/-- C10: jitc_prefix_sum silently accepts Int32 by reinterpreting it as
UInt32 (the computation happens in the wrap-around ring ZMod (2 ^ 32), i.e.
two's-complement arithmetic), and for a non-empty input the CPU path raises
the "type is not supported" fault exactly when the converted element type is
none of UInt32, UInt64, Float32, Float64. -/
theorem C10_int32_reinterpret (block_size : Nat) (a : List (ZMod (2 ^ 32)))
    (exclusive : Bool) :
    jitc_prefix_sum VarType.Int32 exclusive block_size a
      = jitc_prefix_sum VarType.UInt32 exclusive block_size a
    ∧ (∃ s, jitc_prefix_sum VarType.Int32 exclusive block_size a = Except.ok s)
    ∧ (∀ vt : VarType, a ≠ [] →
        ((jitc_prefix_sum (R := ZMod (2 ^ 32)) vt exclusive block_size a
            = Except.error (JitFault.raised "jit_prefix_sum(): type is not supported!"))
          ↔ sum_reduce_supported (prefix_sum_convert vt) = false)) := by
  refine ⟨rfl, ?_, ?_⟩
  · by_cases hlen : a.length = 0 <;>
      simp [jitc_prefix_sum, hlen, prefix_sum_convert, sum_reduce_supported]
  · intro vt hne
    have hlen : ¬a.length = 0 := by
      simpa [List.length_eq_zero] using hne
    by_cases hs : sum_reduce_supported (prefix_sum_convert vt) <;>
      simp [jitc_prefix_sum, hlen, hs]

/-- Witness for C10 at a concrete input: Int8 stays unsupported after the
conversion and faults on [5], while Int32 is accepted. -/
theorem C10_witness :
    ((jitc_prefix_sum (R := ZMod (2 ^ 32)) VarType.Int8 true 4 [5]
        = Except.error (JitFault.raised "jit_prefix_sum(): type is not supported!"))
      ↔ sum_reduce_supported (prefix_sum_convert VarType.Int8) = false)
    ∧ jitc_prefix_sum VarType.Int32 true 4 ([5] : List (ZMod (2 ^ 32)))
        = jitc_prefix_sum VarType.UInt32 true 4 ([5] : List (ZMod (2 ^ 32))) :=
  ⟨(C10_int32_reinterpret 4 [5] true).2.2 VarType.Int8 (by decide),
   (C10_int32_reinterpret 4 [5] true).1⟩

/-- C3: for a byte array b of 0/1 values with positive length, the CPU path
of jitc_compress — per-block counts, an exclusive prefix sum over the block
partials, and a second pass writing source indices at the carried-in base
offsets — produces an index list I that is strictly increasing with
b[I[k]] = 1 at every entry, and returns count = sum(b) = |I|. -/
theorem C3_compress_correct (block_size : Nat) (b : List Nat)
    (hb : ∀ v ∈ b, v ≤ 1) (hne : b ≠ []) :
    List.Pairwise (fun i j => i < j) (jitc_compress block_size b).1
    ∧ (∀ i ∈ (jitc_compress block_size b).1, b.getD i 0 = 1)
    ∧ (jitc_compress block_size b).2 = b.sum
    ∧ (jitc_compress block_size b).1.length = (jitc_compress block_size b).2 := by
  have hlen0 : ¬ b.length = 0 := by simpa [List.length_eq_zero] using hne
  have hcc : jitc_compress block_size b = (oneIndices 0 b, b.sum) := by
    unfold jitc_compress
    rw [if_neg hlen0, jitc_compress_cpu_eq block_size b hb hne]
  rw [hcc]
  refine ⟨oneIndices_pairwise b 0, ?_, rfl, oneIndices_length b 0 hb⟩
  intro i hi
  obtain ⟨h1, h2, h3⟩ := oneIndices_bounds b 0 i hi
  have h4 : b.getD i 0 ≤ 1 := by
    rw [List.getD_eq_getElem b 0 (by omega)]
    exact hb _ (List.getElem_mem _)
  simp only [Nat.sub_zero] at h3
  omega

/-- Witness for C3 at the concrete boolean array [1, 0, 1, 1] with block
size 2 (two blocks, so the scratch prefix-sum path is exercised). -/
theorem C3_witness :
    List.Pairwise (fun i j => i < j) (jitc_compress 2 [1, 0, 1, 1]).1
    ∧ (∀ i ∈ (jitc_compress 2 [1, 0, 1, 1]).1, [1, 0, 1, 1].getD i 0 = 1)
    ∧ (jitc_compress 2 [1, 0, 1, 1]).2 = [1, 0, 1, 1].sum
    ∧ (jitc_compress 2 [1, 0, 1, 1]).1.length = (jitc_compress 2 [1, 0, 1, 1]).2 :=
  C3_compress_correct 2 [1, 0, 1, 1] (by decide) (by decide)

/-- C1 counterexample: a prefix-sum call with element count zero returns
normally with no raised fault — the claim that every parallel primitive
rejects a zero element count with a fault fails here (jitc_compress and
jitc_mkperm return immediately as well). -/
theorem C1_counterexample_zero_size :
    jitc_prefix_sum (R := ZMod (2 ^ 32)) VarType.UInt32 true 16 [] = Except.ok []
    ∧ jitc_compress 16 [] = ([], 0)
    ∧ jitc_mkperm_entry 0 7 = Except.ok MkpermEntry.zeroSizeReturn :=
  ⟨rfl, rfl, rfl⟩

/-- C1 (amended): calls with a zero element count are accepted as silent
no-ops — jitc_prefix_sum returns with the output untouched, jitc_compress
returns count 0, jitc_mkperm returns 0 — while unsupported type/op
combinations are rejected with a raised fault: the prefix-sum dispatch for
types outside {UInt32, UInt64, Float32, Float64}, the reduction dispatch for
an unsupported data type or operation, and the block-copy/block-sum dispatch
for types without a block kernel. -/
theorem C1_amended_zero_size_noop (block_size bucket_count : Nat)
    (vt : VarType) (op : ReduceOp) (exclusive : Bool) (a : List (ZMod (2 ^ 32))) :
    jitc_prefix_sum (R := ZMod (2 ^ 32)) vt exclusive block_size [] = Except.ok []
    ∧ jitc_compress block_size [] = ([], 0)
    ∧ jitc_mkperm_entry 0 bucket_count = Except.ok MkpermEntry.zeroSizeReturn
    ∧ (a ≠ [] → sum_reduce_supported (prefix_sum_convert vt) = false →
        jitc_prefix_sum vt exclusive block_size a
          = Except.error (JitFault.raised "jit_prefix_sum(): type is not supported!"))
    ∧ (jitc_reduce_create vt op = Except.ok () ↔
        (reduce_type_supported vt = true ∧ reduce_op_supported op = true))
    ∧ (1 < block_size → block_op_type_supported (make_int_type_unsigned vt) = false →
        jitc_block_copy_checks vt a.length block_size
          = some (JitFault.raised "jit_block_copy_create(): unsupported data type!")) := by
  refine ⟨rfl, rfl, rfl, ?_, ?_, ?_⟩
  · intro hne hsup
    have hlen : ¬ a.length = 0 := by simpa [List.length_eq_zero] using hne
    simp [jitc_prefix_sum, hlen, hsup]
  · constructor
    · intro h
      by_cases h1 : reduce_type_supported vt <;>
        by_cases h2 : reduce_op_supported op <;>
        simp [jitc_reduce_create, h1, h2] at h ⊢
    · rintro ⟨h1, h2⟩
      simp [jitc_reduce_create, h1, h2]
  · intro hbs hsup
    have h0 : ¬ block_size = 0 := by omega
    have h1 : ¬ block_size = 1 := by omega
    simp [jitc_block_copy_checks, h0, h1, hsup]

/-- Witness for C1 (amended) at concrete inputs: prefix sum on [1] with the
Bool element type faults, block-copy with the Bool element type and block
size 4 faults, and the (UInt32, Add) reduction combination is accepted. -/
theorem C1_witness :
    jitc_prefix_sum (R := ZMod (2 ^ 32)) VarType.Bool true 4 [1]
        = Except.error (JitFault.raised "jit_prefix_sum(): type is not supported!")
    ∧ jitc_block_copy_checks VarType.Bool ([1] : List (ZMod (2 ^ 32))).length 4
        = some (JitFault.raised "jit_block_copy_create(): unsupported data type!")
    ∧ (jitc_reduce_create VarType.UInt32 ReduceOp.Add = Except.ok () ↔
        (reduce_type_supported VarType.UInt32 = true
          ∧ reduce_op_supported ReduceOp.Add = true)) :=
  ⟨(C1_amended_zero_size_noop 4 3 VarType.Bool ReduceOp.Add true [1]).2.2.2.1
      (by decide) (by decide),
   (C1_amended_zero_size_noop 4 3 VarType.Bool ReduceOp.Add true [1]).2.2.2.2.2
      (by decide) (by decide),
   (C1_amended_zero_size_noop 4 3 VarType.UInt32 ReduceOp.Add true [1]).2.2.2.2.1⟩

/-- C4: after traversal, the schedule is a permutation of the collected
entries sorted primarily by descending size and secondarily by ascending
identifier, and the partition into groups is a chain of contiguous,
non-empty, maximal runs of equal size covering the whole schedule. -/
theorem C4_schedule_sorted_grouped (l : List ScheduledVariable) (hne : l ≠ []) :
    (jitc_eval_sort l).Perm l
    ∧ List.Pairwise
        (fun a b => b.size < a.size ∨ (a.size = b.size ∧ a.index ≤ b.index))
        (jitc_eval_sort l)
    ∧ groups_chain (jitc_eval_sort l) 0 (jitc_schedule_groups (jitc_eval_sort l)) := by
  have hperm : (jitc_eval_sort l).Perm l := List.perm_insertionSort schedule_le l
  have hsorted : List.Sorted schedule_le (jitc_eval_sort l) :=
    List.sorted_insertionSort schedule_le l
  have hlen : (jitc_eval_sort l).length = l.length := hperm.length_eq
  have hlen0 : 0 < (jitc_eval_sort l).length := by
    rw [hlen]
    exact List.length_pos.mpr hne
  refine ⟨hperm, hsorted.imp (fun hab => (schedule_le_iff _ _).mp hab), ?_⟩
  unfold jitc_schedule_groups
  rw [if_neg (by omega)]
  by_cases hsz : svSizeAt (jitc_eval_sort l) 0
      = svSizeAt (jitc_eval_sort l) ((jitc_eval_sort l).length - 1)
  · rw [if_pos hsz]
    refine ⟨rfl, rfl, hlen0, ?_, trivial, rfl⟩
    intro j hj1 hj2
    have hj2b : j < (jitc_eval_sort l).length := hj2
    show svSizeAt (jitc_eval_sort l) j = svSizeAt (jitc_eval_sort l) 0
    have ha := sorted_size_antitone _ hsorted 0 j (by omega) hj2b
    have hb := sorted_size_antitone _ hsorted j ((jitc_eval_sort l).length - 1)
      (by omega) (by omega)
    omega
  · rw [if_neg hsz]
    refine schedule_groups_loop_chain _ 1 0 (by omega) (by omega) ?_
    intro j hj1 hj2
    have hj0 : j = 0 := by omega
    rw [hj0]

/-- Witness for C4 at a concrete three-entry schedule holding two distinct
sizes. -/
theorem C4_witness :
    (jitc_eval_sort ([⟨1, 5⟩, ⟨2, 3⟩, ⟨2, 7⟩] : List ScheduledVariable)).Perm
        [⟨1, 5⟩, ⟨2, 3⟩, ⟨2, 7⟩]
    ∧ List.Pairwise
        (fun a b => b.size < a.size ∨ (a.size = b.size ∧ a.index ≤ b.index))
        (jitc_eval_sort ([⟨1, 5⟩, ⟨2, 3⟩, ⟨2, 7⟩] : List ScheduledVariable))
    ∧ groups_chain (jitc_eval_sort ([⟨1, 5⟩, ⟨2, 3⟩, ⟨2, 7⟩] : List ScheduledVariable)) 0
        (jitc_schedule_groups
          (jitc_eval_sort ([⟨1, 5⟩, ⟨2, 3⟩, ⟨2, 7⟩] : List ScheduledVariable))) :=
  C4_schedule_sorted_grouped [⟨1, 5⟩, ⟨2, 3⟩, ⟨2, 7⟩] (by decide)

/-- C5: from a freshly initialized recording loop, the first cond() call
returns true, moves to state 2 and records the body-entry snapshot (the
identifiers of the just-interposed placeholders); the second cond() call
returns false, moves to state 3, emits exactly one loop node (mask = the
identifier saved by the first call, inputs = the body-entry snapshot,
side-effect watermark = the one captured at init), writes the final
identifiers back into the caller's slots and restores the
PostponeSideEffects flag; a cond() call before init() raises, as does any
call after the second; destruction in state 1 or 2 triggers the warning. -/
theorem C5_loop_record_states (var_loop : Nat → List Nat → List Nat → List Nat)
    (L : LoopState) (watermark m1 m2 : Nat) (hstate : L.state = 0) :
    (Loop.init L watermark).1 = none
    ∧ ((Loop.init L watermark).2).state = 1
    ∧ (Loop.cond_record var_loop (Loop.init L watermark).2 m1).1 = none
    ∧ (Loop.cond_record var_loop (Loop.init L watermark).2 m1).2.1 = true
    ∧ ((Loop.cond_record var_loop (Loop.init L watermark).2 m1).2.2).state = 2
    ∧ ((Loop.cond_record var_loop (Loop.init L watermark).2 m1).2.2).index_body
        = ((Loop.cond_record var_loop (Loop.init L watermark).2 m1).2.2).index_p
    ∧ (Loop.cond_record var_loop
        ((Loop.cond_record var_loop (Loop.init L watermark).2 m1).2.2) m2).1 = none
    ∧ (Loop.cond_record var_loop
        ((Loop.cond_record var_loop (Loop.init L watermark).2 m1).2.2) m2).2.1 = false
    ∧ ((Loop.cond_record var_loop
        ((Loop.cond_record var_loop (Loop.init L watermark).2 m1).2.2) m2).2.2).state = 3
    ∧ ((Loop.cond_record var_loop
        ((Loop.cond_record var_loop (Loop.init L watermark).2 m1).2.2) m2).2.2).index_p
        = var_loop m1
            ((Loop.cond_record var_loop (Loop.init L watermark).2 m1).2.2).index_body
            ((Loop.cond_record var_loop (Loop.init L watermark).2 m1).2.2).index_p
    ∧ ((Loop.cond_record var_loop
        ((Loop.cond_record var_loop (Loop.init L watermark).2 m1).2.2) m2).2.2).flag_postpone
        = L.flag_postpone
    ∧ ((Loop.cond_record var_loop
        ((Loop.cond_record var_loop (Loop.init L watermark).2 m1).2.2) m2).2.2).emitted
        = L.emitted
          ++ [(m1,
               ((Loop.cond_record var_loop (Loop.init L watermark).2 m1).2.2).index_body,
               var_loop m1
                 ((Loop.cond_record var_loop (Loop.init L watermark).2 m1).2.2).index_body
                 ((Loop.cond_record var_loop (Loop.init L watermark).2 m1).2.2).index_p,
               some watermark)]
    ∧ (∀ mask, (Loop.cond_record var_loop L mask).1
        = some (JitFault.raised "Loop(): must be initialized first!"))
    ∧ (∀ mask, (Loop.cond_record var_loop
        ((Loop.cond_record var_loop
          ((Loop.cond_record var_loop (Loop.init L watermark).2 m1).2.2) m2).2.2) mask).1
        = some (JitFault.raised "Loop(): invalid state!"))
    ∧ Loop.destructor_warns (Loop.init L watermark).2 = true
    ∧ Loop.destructor_warns
        ((Loop.cond_record var_loop (Loop.init L watermark).2 m1).2.2) = true := by
  obtain ⟨st, ip, ii, ib, io, so, sf, cm, sz, fr, fp, em⟩ := L
  simp only at hstate
  subst hstate
  refine ⟨rfl, rfl, rfl, rfl, rfl, rfl, rfl, rfl, rfl, rfl, rfl, rfl,
    fun mask => rfl, fun mask => rfl, rfl, rfl⟩

/-- Witness for C5 at a concrete loop with two variables and an arbitrary
concrete emitter: the first call returns true, the second returns false and
restores the flag, and the destructor warns in the intermediate states. -/
theorem C5_witness :
    (Loop.cond_record (fun _ b _ => b)
        (Loop.init (Loop.put (Loop.put (Loop.new 0 false) 7 4).2 9 4).2 5).2 1).2.1 = true
    ∧ (Loop.cond_record (fun _ b _ => b)
        ((Loop.cond_record (fun _ b _ => b)
          (Loop.init (Loop.put (Loop.put (Loop.new 0 false) 7 4).2 9 4).2 5).2 1).2.2)
        2).2.1 = false
    ∧ Loop.destructor_warns
        (Loop.init (Loop.put (Loop.put (Loop.new 0 false) 7 4).2 9 4).2 5).2 = true
    ∧ Loop.destructor_warns
        ((Loop.cond_record (fun _ b _ => b)
          (Loop.init (Loop.put (Loop.put (Loop.new 0 false) 7 4).2 9 4).2 5).2 1).2.2)
        = true :=
  ⟨(C5_loop_record_states (fun _ b _ => b)
      (Loop.put (Loop.put (Loop.new 0 false) 7 4).2 9 4).2 5 1 2 (by decide)).2.2.2.1,
   (C5_loop_record_states (fun _ b _ => b)
      (Loop.put (Loop.put (Loop.new 0 false) 7 4).2 9 4).2 5 1 2
      (by decide)).2.2.2.2.2.2.2.1,
   (C5_loop_record_states (fun _ b _ => b)
      (Loop.put (Loop.put (Loop.new 0 false) 7 4).2 9 4).2 5 1 2
      (by decide)).2.2.2.2.2.2.2.2.2.2.2.2.2.2.1,
   (C5_loop_record_states (fun _ b _ => b)
      (Loop.put (Loop.put (Loop.new 0 false) 7 4).2 9 4).2 5 1 2
      (by decide)).2.2.2.2.2.2.2.2.2.2.2.2.2.2.2⟩

/-- C6 counterexample: Loop.put on a builder already holding a size-2
variable, called with a size-3 variable, raises the descriptive fault — but
the failing call has already pushed the slot pointer and the identifier, so
the claim that no state is mutated by the failing call is false. -/
theorem C6_counterexample_put_mutates :
    (Loop.put (Loop.put (Loop.new 0 false) 7 2).2 8 3).1
      = some (JitFault.raised "Loop.put(): loop variables have inconsistent sizes!")
    ∧ (Loop.put (Loop.put (Loop.new 0 false) 7 2).2 8 3).2.index_in
      ≠ (Loop.put (Loop.new 0 false) 7 2).2.index_in := by
  exact ⟨rfl, by decide⟩

/-- C6 (amended): each user contract violation fails synchronously at the
faulty call with its descriptive message; the memset_async element-size
check and the mkperm bucket-count check precede all work and mutate
nothing; a failing Loop.put, however, has already appended the slot pointer
and identifier to the builder (only the recorded size is left unchanged). -/
theorem C6_amended_contract_violations (L : LoopState) (id sz : Nat)
    (mem : List Nat) (size isize : Nat) (src : List Nat)
    (msize bucket_count : Nat) :
    (L.size ≠ 0 → sz ≠ 1 → sz ≠ L.size →
      (Loop.put L id sz).1
          = some (JitFault.raised "Loop.put(): loop variables have inconsistent sizes!")
        ∧ (Loop.put L id sz).2.index_p = L.index_p ++ [id]
        ∧ (Loop.put L id sz).2.index_in = L.index_in ++ [id]
        ∧ (Loop.put L id sz).2.size = L.size)
    ∧ (¬(isize = 1 ∨ isize = 2 ∨ isize = 4 ∨ isize = 8) →
        jitc_memset_async mem size isize src
          = (some (JitFault.raised
              "CUDAThreadState::jit_memset_async(): invalid element size (must be 1, 2, 4, or 8)!"),
             mem))
    ∧ (0 < msize → bucket_count = 0 →
        jitc_mkperm_entry msize bucket_count
          = Except.error (JitFault.fatal "jit_mkperm(): bucket_count cannot be zero!")) := by
  refine ⟨?_, ?_, ?_⟩
  · intro h1 h2 h3
    unfold Loop.put
    rw [if_pos ⟨h1, h2, h3⟩]
    exact ⟨rfl, rfl, rfl, rfl⟩
  · intro h
    unfold jitc_memset_async
    rw [if_pos h]
  · intro h1 h2
    have h0 : ¬ msize = 0 := by omega
    unfold jitc_mkperm_entry
    rw [if_neg h0, if_pos h2]

/-- Witness for C6 (amended) at concrete inputs: an inconsistent put, a
memset with element size 5, and mkperm with 4 elements and 0 buckets. -/
theorem C6_witness :
    ((Loop.put (Loop.put (Loop.new 0 false) 7 2).2 8 3).1
        = some (JitFault.raised "Loop.put(): loop variables have inconsistent sizes!")
      ∧ (Loop.put (Loop.put (Loop.new 0 false) 7 2).2 8 3).2.index_p
          = (Loop.put (Loop.new 0 false) 7 2).2.index_p ++ [8]
      ∧ (Loop.put (Loop.put (Loop.new 0 false) 7 2).2 8 3).2.index_in
          = (Loop.put (Loop.new 0 false) 7 2).2.index_in ++ [8]
      ∧ (Loop.put (Loop.put (Loop.new 0 false) 7 2).2 8 3).2.size
          = (Loop.put (Loop.new 0 false) 7 2).2.size)
    ∧ jitc_memset_async [9, 9, 9] 2 5 [1]
        = (some (JitFault.raised
            "CUDAThreadState::jit_memset_async(): invalid element size (must be 1, 2, 4, or 8)!"),
           [9, 9, 9])
    ∧ jitc_mkperm_entry 4 0
        = Except.error (JitFault.fatal "jit_mkperm(): bucket_count cannot be zero!") :=
  ⟨(C6_amended_contract_violations
      (Loop.put (Loop.new 0 false) 7 2).2 8 3 [9, 9, 9] 2 5 [1] 4 0).1
      (by decide) (by decide) (by decide),
   (C6_amended_contract_violations
      (Loop.put (Loop.new 0 false) 7 2).2 8 3 [9, 9, 9] 2 5 [1] 4 0).2.1
      (by decide),
   (C6_amended_contract_violations
      (Loop.put (Loop.new 0 false) 7 2).2 8 3 [9, 9, 9] 2 5 [1] 4 0).2.2
      (by decide) (by decide)⟩

/-- C7: during assembly of one scheduled group, register indices are handed
out monotonically and consecutively: the counter starts at the per-backend
reserved base (4 on CUDA, 1 on LLVM) and the variable at position k of the
group receives reg_index = base + k, regardless of its classification. -/
theorem C7_register_assignment (backend : JitBackend) (group_size : Nat)
    (vars : List AsmVar) :
    (jitc_assemble_regs backend group_size vars).length = vars.length
    ∧ (∀ k, k < vars.length →
        ((jitc_assemble_regs backend group_size vars).getD k
          (ParamType.Register, 0)).2 = asm_reserved backend + k)
    ∧ asm_reserved JitBackend.CUDA = 4
    ∧ asm_reserved JitBackend.LLVM = 1 := by
  refine ⟨jitc_assemble_regs_go_length group_size vars _, ?_, rfl, rfl⟩
  intro k hk
  exact jitc_assemble_regs_go_getD group_size vars (asm_reserved backend) k hk

/-- Witness for C7 on a concrete two-variable CUDA group mixing an input
and a register-only temporary: registers 4 and 5. -/
theorem C7_witness :
    ((jitc_assemble_regs JitBackend.CUDA 8
        [⟨true, false, VarType.UInt32, false, 8, false⟩,
         ⟨false, false, VarType.UInt32, false, 1, false⟩]).getD 0
      (ParamType.Register, 0)).2 = asm_reserved JitBackend.CUDA + 0
    ∧ ((jitc_assemble_regs JitBackend.CUDA 8
        [⟨true, false, VarType.UInt32, false, 8, false⟩,
         ⟨false, false, VarType.UInt32, false, 1, false⟩]).getD 1
      (ParamType.Register, 0)).2 = asm_reserved JitBackend.CUDA + 1 :=
  ⟨(C7_register_assignment JitBackend.CUDA 8
      [⟨true, false, VarType.UInt32, false, 8, false⟩,
       ⟨false, false, VarType.UInt32, false, 1, false⟩]).2.1 0 (by decide),
   (C7_register_assignment JitBackend.CUDA 8
      [⟨true, false, VarType.UInt32, false, 8, false⟩,
       ⟨false, false, VarType.UInt32, false, 1, false⟩]).2.1 1 (by decide)⟩

/-- C9: when loading a compiled CUDA module reports out-of-memory, jitc_run
trims the allocator's free pools and retries the load exactly once; any
error left after this single retry — or any non-out-of-memory error on the
first attempt — is surfaced as fatal by cuda_check. -/
theorem C9_module_load_retry (load : Nat → CUresult) :
    (load 0 = CUresult.outOfMemory →
      (jitc_run_module_load load).attempts = 2
      ∧ (jitc_run_module_load load).trims = 1
      ∧ (cuda_check_fatal (jitc_run_module_load load).result = true
          ↔ load 1 ≠ CUresult.success))
    ∧ (load 0 ≠ CUresult.outOfMemory →
      (jitc_run_module_load load).attempts = 1
      ∧ (jitc_run_module_load load).trims = 0
      ∧ (cuda_check_fatal (jitc_run_module_load load).result = true
          ↔ load 0 ≠ CUresult.success)) := by
  constructor
  · intro h
    refine ⟨?_, ?_, ?_⟩ <;>
      simp [jitc_run_module_load, h, cuda_check_fatal]
  · intro h
    refine ⟨?_, ?_, ?_⟩ <;>
      simp [jitc_run_module_load, h, cuda_check_fatal]

/-- Witness for C9: a first attempt reporting out-of-memory followed by a
successful retry gives two attempts, one trim and no fatal error. -/
theorem C9_witness :
    (jitc_run_module_load
      (fun n => if n = 0 then CUresult.outOfMemory else CUresult.success)).attempts = 2
    ∧ (jitc_run_module_load
      (fun n => if n = 0 then CUresult.outOfMemory else CUresult.success)).trims = 1
    ∧ (cuda_check_fatal (jitc_run_module_load
        (fun n => if n = 0 then CUresult.outOfMemory else CUresult.success)).result = true
        ↔ (fun n => if n = 0 then CUresult.outOfMemory else CUresult.success) 1
            ≠ CUresult.success) :=
  (C9_module_load_retry
    (fun n => if n = 0 then CUresult.outOfMemory else CUresult.success)).1 (by decide)

/-- C8: With every input byte in \x7b0, 1\x7d, jitc_all returns true exactly
when all bytes are nonzero and jitc_any returns true exactly when some byte
is nonzero, for every block size: the padding bytes (1 for all, 0 for any),
the blocked And/Or reduction over the packed uint32 view, and the final
four-byte test together compute the boolean all/any of the input. -/
theorem C8_all_any (block_size : Nat) (values : List Nat)
    (hb : ∀ v ∈ values, v ≤ 1) :
    jit_all block_size values = values.all (fun v => v != 0)
    ∧ jit_any block_size values = values.any (fun v => v != 0) := by
  constructor
  · rw [Bool.eq_iff_iff, jit_all_true_iff block_size values hb, List.all_eq_true]
    constructor
    · intro h v hv
      have h1 := h v hv
      simp only [bne_iff_ne, ne_eq]
      omega
    · intro h v hv
      have h1 := h v hv
      simp only [bne_iff_ne, ne_eq] at h1
      have h2 := hb v hv
      omega
  · rw [Bool.eq_iff_iff, jit_any_true_iff block_size values hb, List.any_eq_true]
    constructor
    · rintro ⟨v, hv, hvne⟩
      exact ⟨v, hv, by simpa [bne_iff_ne] using hvne⟩
    · rintro ⟨v, hv, hvne⟩
      exact ⟨v, hv, by simpa [bne_iff_ne] using hvne⟩

/-- Witness for C8 at block size 2 and bytes [1, 0, 1]. -/
theorem C8_witness :
    (∀ v ∈ [1, 0, 1], v ≤ 1)
    ∧ (jit_all 2 [1, 0, 1] = [1, 0, 1].all (fun v => v != 0)
        ∧ jit_any 2 [1, 0, 1] = [1, 0, 1].any (fun v => v != 0)) :=
  ⟨by decide, C8_all_any 2 [1, 0, 1] (by decide)⟩
